import Mathlib

/-!
Verification of the go-spring configuration core: placeholder resolution,
tag parsing, type-directed binding (`conf/bind.go`), the validator pipeline
(`conf` validator file) and the Configer topological sorter
(`SpringCore` logger file).

Strings from the Go source are embedded as `List Char`; Go's byte-indexed
scans become index computations over these lists.  Fallible Go functions
returning `error` are embedded as `Except BindErr`; Go's `fmt.Errorf("...: %w", err)`
wrapping preserves `errors.Is`, so wrapped errors are embedded as the
wrapped error value itself (the error kind is what the code inspects).
Unbounded recursion in the Go resolver (which can diverge on cyclic
properties) is embedded with an explicit fuel parameter; `BindErr.fuel`
marks fuel exhaustion and never arises in any theorem about terminating runs.
-/

namespace GoSpring

/-- Go strings, embedded as lists of characters. -/
abbrev Str := List Char

/-- Error kinds of the binding/resolution subsystem, matching the error
values the Go code creates and inspects with `errors.Is`. -/
inductive BindErr where
  /-- `errNotExist`, wrapped as `property %q: not exist`; carries the key. -/
  | notExist (key : Str)
  /-- `errInvalidSyntax`. -/
  | invalidSyntax
  /-- fuel exhaustion of the embedding (Go diverges on such inputs). -/
  | fuel
  /-- `slice can't have a non empty default value` and similar unsupported shapes. -/
  | unsupported
  /-- `error splitter '%s'`: named splitter not registered. -/
  | badSplitter
  /-- error returned by a registered splitter, wrapped as `split error: %w`. -/
  | splitFailed
  /-- validation failure reported by a validator (`validate %s error: %w`). -/
  | validateFailed (tag : Str)
  /-- `eval %q returns: %w`: the expression evaluator errored. -/
  | evalFailed (tag : Str)
  /-- `eval %q doesn't return bool`. -/
  | evalNotBool (tag : Str)
deriving DecidableEq, Repr

/-! ## String-search primitives (`strings.Index`, `strings.LastIndex`,
`strings.SplitN`, `strings.TrimSpace`)

`occList s pat` lists every index `i` with `0 ≤ i ≤ s.length` at which
`pat` occurs in `s`, in increasing order; Go's `Index`/`LastIndex` are its
head/last with `-1` for "no occurrence". -/

/-- All occurrence positions of `pat` inside `s`, ascending. -/
def occList (s pat : Str) : List Nat :=
  (List.range (s.length + 1)).filter (fun i => pat.isPrefixOf (s.drop i))

/-- `strings.Index`: first occurrence position of `pat` in `s`, `-1` if none. -/
def strIndex (s pat : Str) : Int :=
  match (occList s pat).head? with
  | some i => (i : Int)
  | none => -1

/-- `strings.LastIndex`: last occurrence position of `pat` in `s`, `-1` if none. -/
def strLastIndex (s pat : Str) : Int :=
  match (occList s pat).getLast? with
  | some i => (i : Int)
  | none => -1

/-- `strings.SplitN(s, sep, 2)`: split at the first occurrence of `sep`. -/
def splitN2 (s sep : Str) : List Str :=
  match (occList s sep).head? with
  | some i => [s.take i, s.drop (i + sep.length)]
  | none => [s]

/-- White space as trimmed by `strings.TrimSpace` (ASCII part of `unicode.IsSpace`). -/
def isSpaceGo (c : Char) : Bool :=
  c = ' ' || c = '\t' || c = '\n' || c = '\x0b' || c = '\x0c' || c = '\r'

/-- `strings.TrimSpace`. -/
def trimSpace (s : Str) : Str :=
  ((s.dropWhile isSpaceGo).reverse.dropWhile isSpaceGo).reverse

/-! ## ParsedTag (`conf/bind.go`) -/

/-- A value tag `${key:=value}||splitter`, decomposed (field for field the
Go `ParsedTag` struct). -/
structure ParsedTag where
  Key : Str
  Def : Str
  HasDef : Bool
  Splitter : Str
deriving DecidableEq, Repr, Inhabited

/-- `ParsedTag.String`: renders `${Key}`, `${Key:=Def}` and the optional
`||Splitter` suffix exactly as the Go method writes them. -/
def ParsedTag.render (tag : ParsedTag) : Str :=
  ['$', '{'] ++ tag.Key ++
    (if tag.HasDef then [':', '='] ++ tag.Def else []) ++ ['}'] ++
    (if tag.Splitter ≠ [] then ['|', '|'] ++ tag.Splitter else [])

/-- `ParseTag`: parses a value tag.  Mirrors the Go index computations:
`i = LastIndex(tag,"||")`, `j = LastIndex(tag,"}")`, `k = Index(tag,"${")`,
with the error checks `i == 0`, `j <= 0`, `k < 0`; the splitter is taken
when `i > j`; the body `tag[k+2:j]` is split once at `":="`.
(The Nat-truncating slice models exactly the in-bounds cases; no theorem
below evaluates it on an input where Go's slice expression would panic.) -/
def parseTag (tag : Str) : Except BindErr ParsedTag :=
  let i := strLastIndex tag ['|', '|']
  if i = 0 then .error .invalidSyntax
  else
    let j := strLastIndex tag ['}']
    if j ≤ 0 then .error .invalidSyntax
    else
      let k := strIndex tag ['$', '{']
      if k < 0 then .error .invalidSyntax
      else
        let splitter := if i > j then trimSpace (tag.drop (i.toNat + 2)) else []
        let body := (tag.drop (k.toNat + 2)).take (j.toNat - (k.toNat + 2))
        let ss := splitN2 body [':', '=']
        .ok ⟨ss.headD [], ss.getD 1 [], decide (1 < ss.length), splitter⟩

/-! ## Properties store and BindParam -/

/-- Modelled from the spec: the PropertyStore is a flat mapping from keys to
string values (spec §3, §6); the repository file defining it is not part of
the sources, only its interface `Has`/`Get`/`SubKeys`/`store` is used by
`conf/bind.go`.  Embedded as an association list; `store` appends. -/
structure Properties where
  entries : List (Str × Str)
deriving DecidableEq, Repr, Inhabited

/-- Modelled from the spec: `Get` returns the value of a key, `""` when the
key is absent (spec §6: `Get(key) string`).  Identical raw lookup backs both
`p.Get` and `p.storage.Get` as used in `conf/bind.go`. -/
def Properties.get (p : Properties) (k : Str) : Str :=
  match p.entries.find? (fun e => e.1 == k) with
  | some e => e.2
  | none => []

/-- Modelled from the spec: `Has` reports whether a key is present
(spec §6: `Has(key) bool`). -/
def Properties.has (p : Properties) (k : Str) : Bool :=
  p.entries.any (fun e => e.1 == k)

/-- A Go `reflect.StructTag`, abstracted to its `Lookup` interface: an
association from tag names to tag contents. -/
abbrev StructTag := List (String × Str)

/-- `StructTag.Lookup`. -/
def lookupTag (t : StructTag) (name : String) : Option Str :=
  match t.find? (fun e => e.1 == name) with
  | some e => some e.2
  | none => none

/-- `BindParam`: the key/path/tag/validation tuple threaded through binding. -/
structure BindParam where
  Key : Str
  Path : Str
  Tag : ParsedTag
  Validate : StructTag
deriving Repr, Inhabited

/-- `BindParam.BindTag`: parse the tag, normalize `ROOT` to the empty key and
the empty key to `ANONYMOUS`, and extend the full key. -/
def BindParam.bindTag (param : BindParam) (tag : Str) (validate : StructTag) :
    Except BindErr BindParam :=
  match parseTag tag with
  | .error e => .error e
  | .ok pt =>
    let pt :=
      if pt.Key = "ROOT".toList then { pt with Key := [] }
      else if pt.Key = [] then { pt with Key := "ANONYMOUS".toList }
      else pt
    let key :=
      if param.Key = [] then pt.Key
      else if pt.Key ≠ [] then param.Key ++ '.' :: pt.Key
      else param.Key
    .ok { param with Tag := pt, Key := key, Validate := validate }

/-- The `BindParam` built inside `resolveString`: a zero value on which
`BindTag` is run with its error discarded (`_ = param.BindTag(...)`);
on a parse error the zero `BindParam` remains. -/
def bindTagZero (tag : Str) : BindParam :=
  match (default : BindParam).bindTag tag [] with
  | .ok p => p
  | .error _ => default

/-! ## Placeholder resolution (`resolve` / `resolveString`) -/

/-- The brace scanner of `resolveString`: walks the string tracking the
nesting count, remembering the position of the first `${` seen at depth 0
and the position of the `}` that returns the depth to 0 (where Go breaks).
Returns `(start, end, count)`; `none` plays Go's `-1`. -/
def scanAux : Str → Nat → Nat → Option Nat → Option Nat × Option Nat × Nat
  | [], _, count, start => (start, none, count)
  | c :: rest, i, count, start =>
    if c = '$' then
      if rest.head? = some '{' then
        scanAux rest (i + 1) (count + 1) (if count = 0 then some i else start)
      else scanAux rest (i + 1) count start
    else if c = '}' then
      if count = 0 then scanAux rest (i + 1) count start
      else if count = 1 then (start, some i, 0)
      else scanAux rest (i + 1) (count - 1) start
    else scanAux rest (i + 1) count start

/-- The body of Go's `resolve`, parameterized by the recursive-resolution
callback `rs` (which the Go code takes as the fixed function `resolveString`):
a non-empty stored value is resolved; otherwise a present default is resolved;
otherwise a present (necessarily empty) value yields `""`; otherwise
`errNotExist`. -/
def resolveWith (p : Properties) (param : BindParam)
    (rs : Str → Except BindErr Str) : Except BindErr Str :=
  let val := p.get param.Key
  if val ≠ [] then rs val
  else if param.Tag.HasDef then rs param.Tag.Def
  else if p.has param.Key then .ok []
  else .error (.notExist param.Key)

/-- `resolveString`, with fuel: scan for the first outermost `${...}` span;
no span returns the string unchanged; an unterminated span is a syntax
error; otherwise the span is parsed (`BindTag` on a zero `BindParam`),
resolved via `resolve`, the remainder of the string is resolved recursively,
and prefix, substitution and resolved remainder are concatenated. -/
def resolveStringF : Nat → Properties → Str → Except BindErr Str
  | 0, _, _ => .error .fuel
  | fuel + 1, p, s =>
    let sc := scanAux s 0 0 none
    match sc.1 with
    | none => .ok s
    | some start =>
      match sc.2.1 with
      | none => .error .invalidSyntax
      | some e =>
        let param := bindTagZero ((s.drop start).take (e + 1 - start))
        match resolveWith p param (resolveStringF fuel p) with
        | .error err => .error err
        | .ok s1 =>
          match resolveStringF fuel p (s.drop (e + 1)) with
          | .error err => .error err
          | .ok s2 => .ok (s.take start ++ s1 ++ s2)

/-- `resolve`: property-reference processing of the value of `param.Key`. -/
def resolve (fuel : Nat) (p : Properties) (param : BindParam) :
    Except BindErr Str :=
  resolveWith p param (resolveStringF fuel p)

end GoSpring

namespace GoSpring

/-! ## Substring containment (`strings.Contains`) -/

/-- `strings.Contains(s, pat)`: some occurrence of `pat` inside `s`. -/
def hasSub (s pat : Str) : Bool :=
  match s with
  | [] => pat.isPrefixOf []
  | c :: rest => pat.isPrefixOf (c :: rest) || hasSub rest pat

/-! ## Helper lemmas about the store and the scanner -/

theorem get_eq_nil_of_not_has (p : Properties) (k : Str) (h : p.has k = false) :
    p.get k = [] := by
  unfold Properties.get
  cases hf : p.entries.find? (fun e => e.1 == k) with
  | none => rfl
  | some e =>
    exfalso
    have hmem := List.mem_of_find?_eq_some hf
    have hpe := List.find?_some hf
    have : p.entries.any (fun e => e.1 == k) = true :=
      List.any_eq_true.mpr ⟨e, hmem, hpe⟩
    rw [Properties.has] at h
    simp [this] at h

/-- A string with no `${` makes the brace scanner find nothing. -/
theorem scanAux_of_no_sub (s : Str) (h : hasSub s ['$', '{'] = false) :
    ∀ i, scanAux s i 0 none = (none, none, 0) := by
  induction s with
  | nil => intro i; rfl
  | cons c rest ih =>
    intro i
    rw [hasSub, Bool.or_eq_false_iff] at h
    obtain ⟨h1, h2⟩ := h
    rw [scanAux]
    by_cases hc : c = '$'
    · subst hc
      rw [if_pos rfl]
      cases hh : rest.head? with
      | none => simp only [hh]; exact ih h2 _
      | some d =>
        by_cases hd : d = '{'
        · subst hd
          exfalso
          cases rest with
          | nil => simp at hh
          | cons r rs =>
            simp only [List.head?] at hh
            injection hh with hr
            subst hr
            simp [List.isPrefixOf] at h1
        · simp only [hh]
          rw [if_neg (by simp [hd])]
          exact ih h2 _
    · rw [if_neg hc]
      by_cases hc2 : c = '}'
      · rw [if_pos hc2, if_pos rfl]
        exact ih h2 _
      · rw [if_neg hc2]
        exact ih h2 _

/-- `resolveString` returns a `${`-free string unchanged. -/
theorem resolveStringF_of_no_sub (fuel : Nat) (p : Properties) (s : Str)
    (h : hasSub s ['$', '{'] = false) :
    resolveStringF (fuel + 1) p s = .ok s := by
  rw [resolveStringF, scanAux_of_no_sub s h 0]

/-- Any `notExist` failure produced by `resolveWith` names an absent key,
provided the recursive-resolution callback has that property. -/
theorem resolveWith_notExist {p : Properties} {param : BindParam}
    {rs : Str → Except BindErr Str} {j : Str}
    (hrs : ∀ s, rs s = .error (.notExist j) → p.has j = false)
    (h : resolveWith p param rs = .error (.notExist j)) : p.has j = false := by
  rw [resolveWith] at h
  split at h
  · exact hrs _ h
  · split at h
    · exact hrs _ h
    · split at h
      · exact absurd h (by simp)
      · rename_i hval hdef hhas
        injection h with h'
        injection h' with hk
        rw [← hk]
        simpa using hhas

/-- Any `notExist` failure of `resolveString` names a key absent from the store. -/
theorem resolveStringF_notExist :
    ∀ (fuel : Nat) (p : Properties) (s j : Str),
      resolveStringF fuel p s = .error (.notExist j) → p.has j = false := by
  intro fuel
  induction fuel with
  | zero => intro p s j h; exact absurd h (by simp [resolveStringF])
  | succ fuel ih =>
    intro p s j h
    simp only [resolveStringF] at h
    split at h
    · exact absurd h (by simp)
    · split at h
      · exact absurd h (by simp)
      · split at h
        · rename_i err hres
          injection h with h'
          subst h'
          exact resolveWith_notExist (fun t ht => ih p t j ht) hres
        · split at h
          · rename_i hsuf
            injection h with h'
            subst h'
            exact ih p _ j hsuf
          · exact absurd h (by simp)

end GoSpring

namespace GoSpring

/-- C8: for every string `s` containing no occurrence of the substring `${`,
placeholder resolution succeeds and returns `s` unchanged. -/
theorem claim_C8 (fuel : Nat) (p : Properties) (s : Str)
    (h : hasSub s ['$', '{'] = false) :
    resolveStringF (fuel + 1) p s = .ok s :=
  resolveStringF_of_no_sub fuel p s h

/-- Witness for C8 at the concrete placeholder-free string `"ab"`. -/
theorem claim_C8_witness :
    resolveStringF 1 (Properties.mk []) ['a', 'b'] = .ok ['a', 'b'] :=
  claim_C8 0 (Properties.mk []) ['a', 'b'] (by decide)

/-- Counterexample to C3 as stated: the key `k` is present in the store
(with the empty string as value), yet `resolve` substitutes the tag's
default `d`, not the (resolution of the) store's value `""`. -/
theorem claim_C3_counterexample :
    (Properties.mk [(['k'], [])]).has ['k'] = true ∧
    resolve 1 (Properties.mk [(['k'], [])])
      ⟨['k'], [], ⟨['k'], ['d'], true, []⟩, []⟩ = .ok ['d'] ∧
    resolveStringF 1 (Properties.mk [(['k'], [])])
      ((Properties.mk [(['k'], [])]).get ['k']) = .ok [] ∧
    (Except.ok ['d'] : Except BindErr Str) ≠ .ok [] :=
  ⟨rfl, rfl, rfl, by simp⟩

/-- C3 (amended): during resolution of `${k:=d}`, the store's value for `k`
is what gets substituted (after recursive resolution) whenever `k` is
present with a non-empty value; the tag's default `d` is used when the
stored value is empty or `k` is absent. -/
theorem claim_C3 (fuel : Nat) (p : Properties) (param : BindParam) :
    (p.get param.Key ≠ [] →
      resolve fuel p param = resolveStringF fuel p (p.get param.Key)) ∧
    (p.get param.Key = [] → param.Tag.HasDef = true →
      resolve fuel p param = resolveStringF fuel p param.Tag.Def) := by
  constructor
  · intro h
    simp [resolve, resolveWith, h]
  · intro h hdef
    simp [resolve, resolveWith, h, hdef]

/-- Witness for C3 at a store holding `a = "v"`. -/
theorem claim_C3_witness :
    resolve 1 (Properties.mk [(['a'], ['v'])]) ⟨['a'], [], default, []⟩ =
      resolveStringF 1 (Properties.mk [(['a'], ['v'])])
        ((Properties.mk [(['a'], ['v'])]).get ['a']) :=
  (claim_C3 1 (Properties.mk [(['a'], ['v'])]) ⟨['a'], [], default, []⟩).1 (by decide)

/-- Counterexample to C6 as stated: `k` is absent and the tag is the
well-formed `${k:=${x}}`, yet resolution does not succeed — the default's
own recursive resolution fails with `notExist` for `x`. -/
theorem claim_C6_counterexample :
    (Properties.mk []).has ['k'] = false ∧
    resolve 1 (Properties.mk [])
      ⟨['k'], [], ⟨['k'], ['$', '{', 'x', '}'], true, []⟩, []⟩ =
      .error (.notExist ['x']) :=
  ⟨rfl, rfl⟩

/-- C6 (amended): for a placeholder `${k:=d}` whose key is absent from the
store, resolution returns the recursive resolution of `d`; in particular it
succeeds and yields `d` itself whenever `d` contains no `${`. -/
theorem claim_C6 (fuel : Nat) (p : Properties) (param : BindParam)
    (hhas : p.has param.Key = false) (hdef : param.Tag.HasDef = true) :
    resolve fuel p param = resolveStringF fuel p param.Tag.Def ∧
    (hasSub param.Tag.Def ['$', '{'] = false →
      resolve (fuel + 1) p param = .ok param.Tag.Def) := by
  have hget := get_eq_nil_of_not_has p param.Key hhas
  constructor
  · simp [resolve, resolveWith, hget, hdef]
  · intro hns
    simp [resolve, resolveWith, hget, hdef,
      resolveStringF_of_no_sub fuel p _ hns]

/-- Witness for C6: absent key `k`, default `d`. -/
theorem claim_C6_witness :
    resolve 1 (Properties.mk []) ⟨['k'], [], ⟨['k'], ['d'], true, []⟩, []⟩ =
      resolveStringF 1 (Properties.mk []) ['d'] ∧
    (hasSub ['d'] ['$', '{'] = false →
      resolve 2 (Properties.mk []) ⟨['k'], [], ⟨['k'], ['d'], true, []⟩, []⟩ =
        .ok ['d']) :=
  claim_C6 1 (Properties.mk []) ⟨['k'], [], ⟨['k'], ['d'], true, []⟩, []⟩ rfl rfl

/-- Counterexample to C10 as stated: `k` is present in the store (value
`${x}`), yet resolving `k` returns a `notExist` failure — the one that the
recursive resolution of its value produced for the absent key `x`. -/
theorem claim_C10_counterexample :
    (Properties.mk [(['k'], ['$', '{', 'x', '}'])]).has ['k'] = true ∧
    resolve 2 (Properties.mk [(['k'], ['$', '{', 'x', '}'])])
      ⟨['k'], [], ⟨['k'], [], false, []⟩, []⟩ = .error (.notExist ['x']) :=
  ⟨rfl, rfl⟩

/-- C10 (amended): a key present with the empty string as value and a tag
without default resolves to the empty string rather than `notExist`; and
every `notExist` failure names a key that is absent from the store (the
requested key itself yields `notExist` only when absent with no default,
but failures of recursively resolved placeholders propagate). -/
theorem claim_C10 :
    (∀ (fuel : Nat) (p : Properties) (param : BindParam),
      p.has param.Key = true → p.get param.Key = [] →
      param.Tag.HasDef = false → resolve fuel p param = .ok []) ∧
    (∀ (fuel : Nat) (p : Properties) (param : BindParam) (j : Str),
      resolve fuel p param = .error (.notExist j) → p.has j = false) := by
  constructor
  · intro fuel p param hhas hget hdef
    simp [resolve, resolveWith, hget, hdef, hhas]
  · intro fuel p param j h
    exact resolveWith_notExist (fun t ht => resolveStringF_notExist fuel p t j ht) h

/-- Witness for C10: `k` present with empty value and no default resolves
to the empty string. -/
theorem claim_C10_witness :
    resolve 1 (Properties.mk [(['k'], [])])
      ⟨['k'], [], ⟨['k'], [], false, []⟩, []⟩ = .ok [] :=
  claim_C10.1 1 (Properties.mk [(['k'], [])])
    ⟨['k'], [], ⟨['k'], [], false, []⟩, []⟩ rfl rfl rfl

end GoSpring

namespace GoSpring

/-! ## Occurrence-list lemmas for the index primitives -/

theorem mem_occList {s pat : Str} {i : Nat} :
    i ∈ occList s pat ↔ i ≤ s.length ∧ pat.isPrefixOf (s.drop i) = true := by
  simp [occList, List.mem_filter, List.mem_range, Nat.lt_succ_iff]

theorem occList_pairwise (s pat : Str) : (occList s pat).Pairwise (· < ·) :=
  (List.pairwise_lt_range _).filter _

theorem pairwise_getLast_max {l : List Nat} (h : l.Pairwise (· < ·)) :
    ∀ {j : Nat}, l.getLast? = some j → ∀ i ∈ l, i ≤ j := by
  induction l with
  | nil => intro j hj; simp at hj
  | cons a t ih =>
    intro j hj i hi
    rw [List.pairwise_cons] at h
    obtain ⟨ha, ht⟩ := h
    cases t with
    | nil =>
      simp at hj hi
      omega
    | cons b u =>
      have hj' : (b :: u).getLast? = some j := by
        rwa [List.getLast?_cons_cons] at hj
      rcases List.mem_cons.mp hi with rfl | hi'
      · exact le_of_lt (ha j (List.mem_of_mem_getLast? hj'))
      · exact ih ht hj' i hi'

theorem pairwise_head_min {l : List Nat} (h : l.Pairwise (· < ·)) :
    ∀ {j : Nat}, l.head? = some j → ∀ i ∈ l, j ≤ i := by
  cases l with
  | nil => intro j hj; simp at hj
  | cons a t =>
    intro j hj i hi
    rw [List.head?_cons] at hj
    injection hj with hj
    subst hj
    rw [List.pairwise_cons] at h
    rcases List.mem_cons.mp hi with rfl | hi'
    · exact le_refl _
    · exact le_of_lt (h.1 i hi')

theorem occList_head_eq_of {s pat : Str} {j : Nat}
    (hocc : j ∈ occList s pat) (hmin : ∀ i ∈ occList s pat, j ≤ i) :
    (occList s pat).head? = some j := by
  cases hl : (occList s pat).head? with
  | none =>
    rw [List.head?_eq_none_iff] at hl
    rw [hl] at hocc
    simp at hocc
  | some m =>
    have hm : m ∈ occList s pat := List.mem_of_mem_head? (Option.mem_def.mpr hl)
    have h1 : j ≤ m := hmin m hm
    have h2 : m ≤ j := pairwise_head_min (occList_pairwise s pat) hl j hocc
    rw [Nat.le_antisymm h2 h1]

theorem occList_getLast_eq_of {s pat : Str} {j : Nat}
    (hocc : j ∈ occList s pat) (hmax : ∀ i ∈ occList s pat, i ≤ j) :
    (occList s pat).getLast? = some j := by
  cases hl : (occList s pat).getLast? with
  | none =>
    rw [List.getLast?_eq_none_iff] at hl
    rw [hl] at hocc
    simp at hocc
  | some m =>
    have hm : m ∈ occList s pat := List.mem_of_mem_getLast? hl
    have h1 : m ≤ j := hmax m hm
    have h2 : j ≤ m := pairwise_getLast_max (occList_pairwise s pat) hl j hocc
    rw [Nat.le_antisymm h1 h2]

theorem strLastIndex_eq_of {s pat : Str} {j : Nat}
    (hocc : j ∈ occList s pat) (hmax : ∀ i ∈ occList s pat, i ≤ j) :
    strLastIndex s pat = (j : Int) := by
  rw [strLastIndex, occList_getLast_eq_of hocc hmax]

theorem strIndex_eq_of {s pat : Str} {j : Nat}
    (hocc : j ∈ occList s pat) (hmin : ∀ i ∈ occList s pat, j ≤ i) :
    strIndex s pat = (j : Int) := by
  rw [strIndex, occList_head_eq_of hocc hmin]

theorem strLastIndex_le_of {s pat : Str} {b : Int}
    (h : ∀ i ∈ occList s pat, (i : Int) ≤ b) (hb : -1 ≤ b) :
    strLastIndex s pat ≤ b := by
  rw [strLastIndex]
  cases hl : (occList s pat).getLast? with
  | none => exact hb
  | some m => exact h m (List.mem_of_mem_getLast? hl)

theorem strLastIndex_mem_of_eq_zero {s pat : Str}
    (h : strLastIndex s pat = 0) : 0 ∈ occList s pat := by
  rw [strLastIndex] at h
  cases hl : (occList s pat).getLast? with
  | none => rw [hl] at h; exact absurd h (by decide)
  | some m =>
    rw [hl] at h
    simp only [] at h
    have : m = 0 := by exact_mod_cast h
    subst this
    exact List.mem_of_mem_getLast? hl

theorem mem_occList_add_length {s pat : Str} {i : Nat}
    (h : i ∈ occList s pat) : i + pat.length ≤ s.length := by
  obtain ⟨hle, hpre⟩ := mem_occList.mp h
  have hlen := (List.isPrefixOf_iff_prefix.mp hpre).length_le
  rw [List.length_drop] at hlen
  omega

theorem not_mem_occList_of_hasSub {s pat : Str} (h : hasSub s pat = false) :
    ∀ i, i ∉ occList s pat := by
  induction s with
  | nil =>
    intro i hi
    obtain ⟨hle, hpre⟩ := mem_occList.mp hi
    rw [hasSub] at h
    rw [List.length_nil, Nat.le_zero] at hle
    subst hle
    rw [List.drop_nil] at hpre
    rw [h] at hpre
    exact absurd hpre (by simp)
  | cons c rest ih =>
    intro i hi
    rw [hasSub, Bool.or_eq_false_iff] at h
    obtain ⟨h1, h2⟩ := h
    obtain ⟨hle, hpre⟩ := mem_occList.mp hi
    cases i with
    | zero =>
      rw [List.drop_zero] at hpre
      rw [h1] at hpre
      exact absurd hpre (by simp)
    | succ n =>
      apply ih h2 n
      apply mem_occList.mpr
      refine ⟨by simpa using hle, by simpa using hpre⟩

theorem occList_shift {a t pat : Str} {i : Nat} (h : i ∈ occList (a ++ t) pat)
    (hge : a.length ≤ i) : (i - a.length) ∈ occList t pat := by
  obtain ⟨hle, hpre⟩ := mem_occList.mp h
  apply mem_occList.mpr
  constructor
  · rw [List.length_append] at hle; omega
  · have heq : (a ++ t).drop i = t.drop (i - a.length) := by
      calc (a ++ t).drop i = (a ++ t).drop (a.length + (i - a.length)) := by
            congr 1; omega
        _ = t.drop (i - a.length) := List.drop_append _
    rwa [heq] at hpre

theorem singleton_isPrefixOf {c : Char} {t : Str} :
    ([c].isPrefixOf t = true) ↔ ∃ u, t = c :: u := by
  rw [List.isPrefixOf_iff_prefix]
  constructor
  · rintro ⟨r, hr⟩; exact ⟨r, hr.symm⟩
  · rintro ⟨u, rfl⟩; exact ⟨u, rfl⟩

theorem pair_isPrefixOf {a b : Char} {t : Str} :
    ([a, b].isPrefixOf t = true) ↔ ∃ u, t = a :: b :: u := by
  rw [List.isPrefixOf_iff_prefix]
  constructor
  · rintro ⟨r, hr⟩; exact ⟨r, hr.symm⟩
  · rintro ⟨u, rfl⟩; exact ⟨u, rfl⟩

end GoSpring

namespace GoSpring

/-! ## `SplitN(.., ":=", 2)` on round-trip bodies -/

theorem splitN2_noSep (s sep : Str) (h : hasSub s sep = false) :
    splitN2 s sep = [s] := by
  rw [splitN2, List.eq_nil_iff_forall_not_mem.mpr (not_mem_occList_of_hasSub h)]
  rfl

theorem splitN2_body (K D : Str) (hk : hasSub K [':', '='] = false) :
    splitN2 (K ++ ':' :: '=' :: D) [':', '='] = [K, D] := by
  have hocc : K.length ∈ occList (K ++ ':' :: '=' :: D) [':', '='] := by
    apply mem_occList.mpr
    constructor
    · simp
    · rw [show (K ++ ':' :: '=' :: D).drop K.length = ':' :: '=' :: D from
        List.drop_left K _]
      exact pair_isPrefixOf.mpr ⟨D, rfl⟩
  have hmin : ∀ i ∈ occList (K ++ ':' :: '=' :: D) [':', '='], K.length ≤ i := by
    intro i hi
    by_contra hlt
    push_neg at hlt
    obtain ⟨hle, hpre⟩ := mem_occList.mp hi
    rw [List.drop_append_of_le_length (le_of_lt hlt)] at hpre
    obtain ⟨u, hu⟩ := pair_isPrefixOf.mp hpre
    cases hKd : K.drop i with
    | nil =>
      have := congrArg List.length hKd
      rw [List.length_drop] at this
      simp at this
      omega
    | cons k1 krest =>
      rw [hKd] at hu
      cases krest with
      | nil =>
        -- K.drop i = [k1]; hu : [k1] ++ (':' :: '=' :: D) = ':' :: '=' :: u
        simp only [List.cons_append, List.nil_append] at hu
        injection hu with h1 h2
        injection h2 with h3 _
        exact absurd h3 (by decide)
      | cons k2 krest2 =>
        -- K.drop i starts with k1 :: k2 :: _, and equals ':' :: '=' :: u ++ ...
        simp only [List.cons_append] at hu
        injection hu with h1 h2
        injection h2 with h3 _
        subst h1; subst h3
        exact not_mem_occList_of_hasSub hk i
          (mem_occList.mpr ⟨le_of_lt hlt,
            by rw [hKd]; exact pair_isPrefixOf.mpr ⟨krest2, rfl⟩⟩)
  have hdrop : (K ++ ':' :: '=' :: D).drop (K.length + 2) = D := by
    rw [show K ++ ':' :: '=' :: D = (K ++ [':', '=']) ++ D by simp]
    rw [show K.length + 2 = (K ++ [':', '=']).length by simp]
    exact List.drop_left _ _
  rw [splitN2, occList_head_eq_of hocc hmin]
  simp only [List.length_cons, List.length_nil]
  rw [List.take_left, hdrop]

end GoSpring

namespace GoSpring

/-! ## `parseTag` on rendered tags -/

theorem parseTag_wrap (body : Str) :
    parseTag ('$' :: '{' :: (body ++ ['}'])) =
      .ok ⟨(splitN2 body [':', '=']).headD [], (splitN2 body [':', '=']).getD 1 [],
           decide (1 < (splitN2 body [':', '=']).length), []⟩ := by
  set W : Str := '$' :: '{' :: (body ++ ['}']) with hW
  have hlen : W.length = body.length + 3 := by simp [hW]
  have hne0 : strLastIndex W ['|', '|'] ≠ 0 := by
    intro h
    obtain ⟨hle, hpre⟩ := mem_occList.mp (strLastIndex_mem_of_eq_zero h)
    rw [List.drop_zero] at hpre
    obtain ⟨u, hu⟩ := pair_isPrefixOf.mp hpre
    rw [hW] at hu
    injection hu with h1 _
    exact absurd h1 (by decide)
  have hj : strLastIndex W ['}'] = ((body.length + 2 : Nat) : Int) := by
    apply strLastIndex_eq_of
    · apply mem_occList.mpr
      refine ⟨by omega, ?_⟩
      have hdrop : W.drop (body.length + 2) = ['}'] := by
        rw [hW]
        show ('$' :: '{' :: (body ++ ['}'])).drop (body.length + 1 + 1) = ['}']
        rw [List.drop_succ_cons, List.drop_succ_cons, List.drop_left]
      rw [hdrop]
      exact singleton_isPrefixOf.mpr ⟨[], rfl⟩
    · intro i hi
      have := mem_occList_add_length hi
      rw [hlen] at this
      simpa using this
  have hile : strLastIndex W ['|', '|'] ≤ ((body.length + 1 : Nat) : Int) := by
    apply strLastIndex_le_of
    · intro i hi
      have := mem_occList_add_length hi
      rw [hlen] at this
      simp at this ⊢
      omega
    · push_cast; omega
  have hk : strIndex W ['$', '{'] = ((0 : Nat) : Int) := by
    apply strIndex_eq_of
    · exact mem_occList.mpr ⟨by omega, pair_isPrefixOf.mpr ⟨body ++ ['}'], hW⟩⟩
    · intro i _; omega
  have hdrop2 : W.drop 2 = body ++ ['}'] := by rw [hW]; rfl
  simp only [parseTag]
  rw [if_neg hne0, hj]
  rw [if_neg (by push_cast; omega : ¬ ((body.length + 2 : Nat) : Int) ≤ 0)]
  rw [hk]
  rw [if_neg (by decide : ¬ ((0 : Nat) : Int) < 0)]
  rw [if_neg (by push_cast at hile ⊢; omega :
    ¬ strLastIndex W ['|', '|'] > ((body.length + 2 : Nat) : Int))]
  rw [show (((0 : Nat) : Int).toNat) = 0 from rfl]
  rw [show (((body.length + 2 : Nat) : Int).toNat) = body.length + 2 from rfl]
  rw [show (0 + 2 : Nat) = 2 from rfl]
  rw [hdrop2]
  rw [show body.length + 2 - 2 = body.length from rfl]
  rw [List.take_left]

end GoSpring

namespace GoSpring

theorem parseTag_wrapSplit (body S : Str) (hS1 : hasSub S ['}'] = false)
    (hS2 : hasSub S ['|', '|'] = false) (hS3 : S.head? ≠ some '|') :
    parseTag ('$' :: '{' :: (body ++ '}' :: '|' :: '|' :: S)) =
      .ok ⟨(splitN2 body [':', '=']).headD [], (splitN2 body [':', '=']).getD 1 [],
           decide (1 < (splitN2 body [':', '=']).length), trimSpace S⟩ := by
  set W : Str := '$' :: '{' :: (body ++ '}' :: '|' :: '|' :: S) with hW
  have hlen : W.length = body.length + 5 + S.length := by simp [hW]; omega
  have hsplitA : W = ('$' :: '{' :: (body ++ ['}'])) ++ ('|' :: '|' :: S) := by
    simp [hW]
  have hsplitB : W = ('$' :: '{' :: (body ++ ['}', '|'])) ++ ('|' :: S) := by
    simp [hW]
  have hsplitC : W = ('$' :: '{' :: (body ++ ['}', '|', '|'])) ++ S := by
    simp [hW]
  have hj : strLastIndex W ['}'] = ((body.length + 2 : Nat) : Int) := by
    apply strLastIndex_eq_of
    · apply mem_occList.mpr
      refine ⟨by omega, ?_⟩
      have hdrop : W.drop (body.length + 2) = '}' :: '|' :: '|' :: S := by
        rw [hW]
        show ('$' :: '{' :: (body ++ '}' :: '|' :: '|' :: S)).drop
          (body.length + 1 + 1) = '}' :: '|' :: '|' :: S
        rw [List.drop_succ_cons, List.drop_succ_cons, List.drop_left]
      rw [hdrop]
      exact singleton_isPrefixOf.mpr ⟨'|' :: '|' :: S, rfl⟩
    · intro i hi
      by_contra hgt
      push_neg at hgt
      have hge : ('$' :: '{' :: (body ++ ['}'])).length ≤ i := by simp; omega
      have hm := occList_shift (hsplitA ▸ hi) hge
      obtain ⟨hle', hpre'⟩ := mem_occList.mp hm
      set m := i - ('$' :: '{' :: (body ++ ['}'])).length with hmdef
      match hmm : m, hle', hpre' with
      | 0, hle', hpre' =>
        rw [List.drop_zero] at hpre'
        obtain ⟨u, hu⟩ := singleton_isPrefixOf.mp hpre'
        injection hu with h1 _
        exact absurd h1 (by decide)
      | 1, hle', hpre' =>
        rw [show (('|' :: '|' :: S).drop 1) = '|' :: S from rfl] at hpre'
        obtain ⟨u, hu⟩ := singleton_isPrefixOf.mp hpre'
        injection hu with h1 _
        exact absurd h1 (by decide)
      | n + 2, hle', hpre' =>
        rw [show (('|' :: '|' :: S).drop (n + 2)) = S.drop n from rfl] at hpre'
        refine not_mem_occList_of_hasSub hS1 n (mem_occList.mpr ⟨?_, hpre'⟩)
        simp at hle'
        omega
  have hi2 : strLastIndex W ['|', '|'] = ((body.length + 3 : Nat) : Int) := by
    apply strLastIndex_eq_of
    · apply mem_occList.mpr
      refine ⟨by omega, ?_⟩
      have hdrop : W.drop (body.length + 3) = '|' :: '|' :: S := by
        rw [hsplitA]
        rw [show body.length + 3 = ('$' :: '{' :: (body ++ ['}'])).length by simp]
        exact List.drop_left _ _
      rw [hdrop]
      exact pair_isPrefixOf.mpr ⟨S, rfl⟩
    · intro i hi
      by_contra hgt
      push_neg at hgt
      have hge : ('$' :: '{' :: (body ++ ['}', '|'])).length ≤ i := by simp; omega
      have hm := occList_shift (hsplitB ▸ hi) hge
      obtain ⟨hle', hpre'⟩ := mem_occList.mp hm
      set m := i - ('$' :: '{' :: (body ++ ['}', '|'])).length with hmdef
      match hmm : m, hle', hpre' with
      | 0, hle', hpre' =>
        rw [List.drop_zero] at hpre'
        obtain ⟨u, hu⟩ := pair_isPrefixOf.mp hpre'
        injection hu with _ h2
        exact hS3 (by rw [h2]; rfl)
      | n + 1, hle', hpre' =>
        rw [show (('|' :: S).drop (n + 1)) = S.drop n from rfl] at hpre'
        refine not_mem_occList_of_hasSub hS2 n (mem_occList.mpr ⟨?_, hpre'⟩)
        simp at hle'
        omega
  have hne0 : strLastIndex W ['|', '|'] ≠ 0 := by
    rw [hi2]
    push_cast
    omega
  have hk : strIndex W ['$', '{'] = ((0 : Nat) : Int) := by
    apply strIndex_eq_of
    · exact mem_occList.mpr ⟨by omega, pair_isPrefixOf.mpr ⟨_, hW⟩⟩
    · intro i _; omega
  have hdrop2 : W.drop 2 = body ++ '}' :: '|' :: '|' :: S := by rw [hW]; rfl
  have hdrop5 : W.drop (body.length + 3 + 2) = S := by
    rw [hsplitC]
    rw [show body.length + 3 + 2 = ('$' :: '{' :: (body ++ ['}', '|', '|'])).length by
      simp]
    exact List.drop_left _ _
  simp only [parseTag]
  rw [if_neg hne0, hj]
  rw [if_neg (by push_cast; omega : ¬ ((body.length + 2 : Nat) : Int) ≤ 0)]
  rw [hk]
  rw [if_neg (by decide : ¬ ((0 : Nat) : Int) < 0)]
  rw [hi2]
  rw [if_pos (by push_cast; omega :
    ((body.length + 3 : Nat) : Int) > ((body.length + 2 : Nat) : Int))]
  rw [show (((0 : Nat) : Int).toNat) = 0 from rfl]
  rw [show (((body.length + 2 : Nat) : Int).toNat) = body.length + 2 from rfl]
  rw [show (((body.length + 3 : Nat) : Int).toNat) = body.length + 3 from rfl]
  rw [hdrop5]
  rw [show (0 + 2 : Nat) = 2 from rfl]
  rw [hdrop2]
  rw [show body.length + 2 - 2 = body.length from rfl]
  rw [List.take_append_of_le_length (le_refl _), List.take_length]

end GoSpring

namespace GoSpring

/-- Counterexample to C4 as stated: the ParsedTag with key `a:=b` (no
default, no splitter) renders to `${a:=b}`, which parses back to key `a`
with default `b` — not the original tag. -/
theorem claim_C4_counterexample :
    parseTag (ParsedTag.render ⟨['a', ':', '=', 'b'], [], false, []⟩) =
      .ok ⟨['a'], ['b'], true, []⟩ ∧
    (⟨['a'], ['b'], true, []⟩ : ParsedTag) ≠ ⟨['a', ':', '=', 'b'], [], false, []⟩ :=
  ⟨rfl, by decide⟩

/-- C4 (amended): `ParseTag (tag.String()) = tag` holds for every ParsedTag
with non-empty `Key`, provided `Key` contains no `":="`, `Def` is empty
when `HasDef` is unset, and a non-empty `Splitter` contains no `"}"` and no
`"||"`, does not start with `'|'`, and carries no leading/trailing space. -/
theorem claim_C4 (tag : ParsedTag) (hkey : tag.Key ≠ [])
    (hkc : hasSub tag.Key [':', '='] = false)
    (hdef : tag.HasDef = false → tag.Def = [])
    (hsp : tag.Splitter ≠ [] →
      hasSub tag.Splitter ['}'] = false ∧ hasSub tag.Splitter ['|', '|'] = false ∧
      tag.Splitter.head? ≠ some '|' ∧ trimSpace tag.Splitter = tag.Splitter) :
    parseTag tag.render = .ok tag := by
  obtain ⟨K, D, hd, S⟩ := tag
  simp only at hkc hdef hsp ⊢
  by_cases hS : S = []
  · subst hS
    have hr : ParsedTag.render ⟨K, D, hd, []⟩ =
        '$' :: '{' :: ((K ++ if hd then ':' :: '=' :: D else []) ++ ['}']) := by
      simp [ParsedTag.render]
    rw [hr, parseTag_wrap]
    cases hd with
    | false =>
      have hD : D = [] := hdef rfl
      subst hD
      rw [show (K ++ if false then ':' :: '=' :: ([] : Str) else []) = K by simp]
      rw [splitN2_noSep K _ hkc]
      rfl
    | true =>
      rw [show (K ++ if true then ':' :: '=' :: D else []) = K ++ ':' :: '=' :: D
        by simp]
      rw [splitN2_body K D hkc]
      rfl
  · obtain ⟨h1, h2, h3, h4⟩ := hsp hS
    have hr : ParsedTag.render ⟨K, D, hd, S⟩ =
        '$' :: '{' ::
          ((K ++ if hd then ':' :: '=' :: D else []) ++ '}' :: '|' :: '|' :: S) := by
      simp [ParsedTag.render, hS]
    rw [hr, parseTag_wrapSplit _ _ h1 h2 h3, h4]
    cases hd with
    | false =>
      have hD : D = [] := hdef rfl
      subst hD
      rw [show (K ++ if false then ':' :: '=' :: ([] : Str) else []) = K by simp]
      rw [splitN2_noSep K _ hkc]
      rfl
    | true =>
      rw [show (K ++ if true then ':' :: '=' :: D else []) = K ++ ':' :: '=' :: D
        by simp]
      rw [splitN2_body K D hkc]
      rfl

/-- Witness for C4 at the concrete tag `${k:=d}||s`. -/
theorem claim_C4_witness :
    parseTag (ParsedTag.render ⟨['k'], ['d'], true, ['s']⟩) =
      .ok ⟨['k'], ['d'], true, ['s']⟩ :=
  claim_C4 ⟨['k'], ['d'], true, ['s']⟩ (by decide) (by decide) (by decide) (by decide)

end GoSpring

namespace GoSpring

/-! ## Type-directed binding (`BindValue` / `bindSlice` / `bindMap`)

The `reflect`-driven dispatch of `BindValue` is embedded over the closed
universe of target shapes the claims exercise: strings, slices and maps
(spec §9 sanctions exactly this re-expression of reflection as a closed
shape descriptor).  The `converters` registry (populated outside the
sources) is empty for these shapes, so `converters[t] == nil` throughout.
A bound Go value is embedded as `Val`; the Go functions mutate a target
`reflect.Value` cell, embedded here by returning the sequence of values
assigned to the target (`v.Set` calls), empty on the error paths. -/

/-- Target shape descriptor (the `reflect.Kind` dispatch of `BindValue`). -/
inductive Ty where
  | str
  | slice (elem : Ty)
  | map (elem : Ty)
deriving DecidableEq, Repr

/-- `utils.IsPrimitiveValueType` on this universe. -/
def Ty.isPrimitive : Ty → Bool
  | .str => true
  | _ => false

/-- Bound values of those shapes. -/
inductive Val where
  | vstr (s : Str)
  | vslice (elems : List Val)
  | vmap (entries : List (Str × Val))
deriving Repr, Inhabited

/-- A registered validator (`Validator.Field`). -/
abbrev ValidatorFn := Str → Val → Option BindErr

/-- The `validators` registry.  In Go this is a package-level map iterated
with `range` (unspecified order); it is embedded as an association list,
iteration order being list order. -/
abbrev ValidatorReg := List (String × ValidatorFn)

/-- `Validate` (validator file of package `conf`): for each registered
validator whose tag name appears in the struct tag, run `Field` on the
value; the first error encountered is returned. -/
def Validate (reg : ValidatorReg) (tag : StructTag) (v : Val) : Option BindErr :=
  match reg with
  | [] => none
  | (name, f) :: rest =>
    match lookupTag tag name with
    | some s =>
      match f s v with
      | some err => some err
      | none => Validate rest tag v
    | none => Validate rest tag v

/-- `exprValidator.Field`, parameterized by the expression evaluator.
Modelled from the spec: the `expr` evaluator is an external collaborator
(spec §1 lists it out of scope); `eval` returns `none` for an evaluation
error, `some none` for a non-bool result, `some (some b)` for a bool. -/
def exprValidatorField (eval : Str → Val → Option (Option Bool))
    (tag : Str) (i : Val) : Option BindErr :=
  match eval tag i with
  | none => some (.evalFailed tag)
  | some none => some (.evalNotBool tag)
  | some (some b) => if b then none else some (.validateFailed tag)

/-- A registered splitter strategy (`splitters`, registered outside the
sources; modelled from the spec §6 splitter registration interface). -/
abbrev SplitterFn := Str → Except BindErr (List Str)
abbrev SplitterReg := List (Str × SplitterFn)

/-- `fmt.Sprintf("%s[%d]", key, i)`. -/
def idxKey (key : Str) (i : Nat) : Str := key ++ '[' :: (Nat.toDigits 10 i ++ [']'])

/-- First dotted segment of a key. -/
def childSeg (k : Str) : Str := k.takeWhile (fun c => c != '.')

/-- Duplicate removal keeping first occurrences. -/
def dedupFirst : List Str → List Str
  | [] => []
  | x :: rest => x :: dedupFirst (rest.filter (fun y => y != x))
termination_by l => l.length
decreasing_by
  exact Nat.lt_succ_of_le (List.length_filter_le _ _)

/-- Modelled from the spec: `SubKeys` enumerates the immediate child
segments of keys under a prefix, one level of hierarchy (spec §4.2
mapping binding, §6 `SubKeys(prefix)`); the Properties implementation is
not among the sources. -/
def SubKeys (p : Properties) (pre : Str) : List Str :=
  dedupFirst (p.entries.filterMap (fun e =>
    if pre = [] then some (childSeg e.1)
    else if (pre ++ ['.']).isPrefixOf e.1 then
      some (childSeg (e.1.drop (pre.length + 1)))
    else none))

/-- `getSlice`: hand the store over when indexed keys exist; otherwise
split the scalar value (or the tag default) into a synthetic indexed
store; `.ok none` is Go's `nil, nil` (empty sequence). -/
def getSlice (splitters : SplitterReg) (p : Properties) (et : Ty)
    (param : BindParam) : Except BindErr (Option Properties) :=
  if p.has (idxKey param.Key 0) then .ok (some p)
  else
    let sv : Except BindErr (Option Str) :=
      if p.has param.Key then .ok (some (p.get param.Key))
      else if param.Tag.HasDef = false then .error (.notExist param.Key)
      else if param.Tag.Def = [] then .ok none
      else if et.isPrimitive = false then .error .unsupported
      else .ok (some param.Tag.Def)
    match sv with
    | .error e => .error e
    | .ok none => .ok none
    | .ok (some strVal) =>
      if strVal = [] then .ok none
      else
        match
          (if param.Tag.Splitter = [] then
            .ok ((strVal.splitOn ',').map trimSpace)
          else
            match (splitters.find? (fun e => e.1 == param.Tag.Splitter)) with
            | some fn =>
              match fn.2 strVal with
              | .ok arr => .ok arr
              | .error _ => .error .splitFailed
            | none => .error .badSplitter : Except BindErr (List Str)) with
        | .error e => .error e
        | .ok arrVal =>
          .ok (some ⟨arrVal.enum.map (fun is => (idxKey param.Key is.1, is.2))⟩)

/-- `errors.Is(err, errNotExist)`. -/
def isNotExist : BindErr → Bool
  | .notExist _ => true
  | _ => false

/-- The index loop of `bindSlice`: bind `key[i]` for `i = 0, 1, ...`,
stopping without error at the first `errNotExist`. -/
def sliceLoop (bv : Properties → Ty → BindParam → Except BindErr Val)
    (p : Properties) (et : Ty) (key path : Str) :
    Nat → Nat → Except BindErr (List Val)
  | 0, _ => .error .fuel
  | fuel + 1, i =>
    match bv p et ⟨idxKey key i, idxKey path i, default, []⟩ with
    | .error e => if isNotExist e then .ok [] else .error e
    | .ok v =>
      match sliceLoop bv p et key path fuel (i + 1) with
      | .error e => .error e
      | .ok vs => .ok (v :: vs)

/-- `bindSlice`, with the `v.Set` calls on the target made explicit:
result is `(returned error?, values assigned to the target in order)`.
Go's unbounded index loop is run on fuel `|entries| + 1`: an index only
continues the loop when its key is present, and the indexed keys are
pairwise distinct, so the loop always stops within the store's size. -/
def bindSlice (reg : ValidatorReg) (splitters : SplitterReg)
    (bv : Properties → Ty → BindParam → Except BindErr Val)
    (p : Properties) (et : Ty) (param : BindParam) :
    Option BindErr × List Val :=
  match getSlice splitters p et param with
  | .error e => (some e, [])
  | .ok none => (none, [Val.vslice []])
  | .ok (some p') =>
    match sliceLoop bv p' et param.Key param.Path (p'.entries.length + 1) 0 with
    | .error e => (some e, [])
    | .ok elems =>
      match Validate reg param.Validate (.vslice elems) with
      | some e => (some e, [])
      | none => (none, [Val.vslice elems])

/-- The per-subkey loop of `bindMap` (entries in `SubKeys` order). -/
def mapLoop (bv : Properties → Ty → BindParam → Except BindErr Val)
    (p : Properties) (et : Ty) (param : BindParam) :
    List Str → Except BindErr (List (Str × Val))
  | [] => .ok []
  | key :: rest =>
    let subKey := if param.Key = [] then key else param.Key ++ '.' :: key
    match bv p et ⟨subKey, param.Path, default, []⟩ with
    | .error e => .error e
    | .ok v =>
      match mapLoop bv p et param rest with
      | .error e => .error e
      | .ok entries => .ok ((key, v) :: entries)

/-- `bindMap`, with the `v.Set` calls on the target made explicit. -/
def bindMap (reg : ValidatorReg)
    (bv : Properties → Ty → BindParam → Except BindErr Val)
    (p : Properties) (et : Ty) (param : BindParam) :
    Option BindErr × List Val :=
  if param.Tag.HasDef = true ∧ param.Tag.Def ≠ [] then (some .unsupported, [])
  else
    match mapLoop bv p et param (SubKeys p param.Key) with
    | .error e => (some e, [])
    | .ok entries =>
      match Validate reg param.Validate (.vmap entries) with
      | some e => (some e, [])
      | none => (none, [Val.vmap entries])

/-- `BindValue` on the embedded universe, with fuel: maps and slices
dispatch to `bindMap`/`bindSlice` (extracting the single assigned value),
strings resolve the effective value and run the validator pipeline. -/
def BindValue (reg : ValidatorReg) (splitters : SplitterReg) :
    Nat → Properties → Ty → BindParam → Except BindErr Val
  | 0, _, _, _ => .error .fuel
  | fuel + 1, p, t, param =>
    match t with
    | .map et =>
      match bindMap reg (BindValue reg splitters fuel) p et param with
      | (some e, _) => .error e
      | (none, tr) => .ok (tr.headD (.vmap []))
    | .slice et =>
      match bindSlice reg splitters (BindValue reg splitters fuel) p et param with
      | (some e, _) => .error e
      | (none, tr) => .ok (tr.headD (.vslice []))
    | .str =>
      match resolve fuel p param with
      | .error e => .error e
      | .ok val =>
        match Validate reg param.Validate (.vstr val) with
        | some e => .error e
        | none => .ok (.vstr val)

end GoSpring

namespace GoSpring

/-- Resolving a zero-tag `BindParam` (as the slice loop builds them) for a
present key whose value is placeholder-free returns the value itself. -/
theorem resolve_zeroTag_of_no_sub (p : Properties) (k path v : Str)
    (hv : hasSub v ['$', '{'] = false) (hget : p.get k = v)
    (hhas : p.has k = true) :
    resolve 1 p ⟨k, path, default, []⟩ = .ok v := by
  by_cases hnil : v = []
  · subst hnil
    simp [resolve, resolveWith, hget, hhas,
      (show (default : ParsedTag).HasDef = false from rfl)]
  · simp [resolve, resolveWith, hget, hnil,
      resolveStringF_of_no_sub 0 p v hv]

/-- Counterexample to C5 as stated: with exactly `a[0] = ${a[1]}` and
`a[1] = w` in the store, binding `a` as a sequence of strings yields
`[w, w]`, not `[${a[1]}, w]` — element values are placeholder-resolved. -/
theorem claim_C5_counterexample :
    (Properties.mk [(idxKey ['a'] 0, ['$', '{', 'a', '[', '1', ']', '}']),
        (idxKey ['a'] 1, ['w'])]).get (idxKey ['a'] 0) =
      ['$', '{', 'a', '[', '1', ']', '}'] ∧
    BindValue [] [] 4
      (Properties.mk [(idxKey ['a'] 0, ['$', '{', 'a', '[', '1', ']', '}']),
        (idxKey ['a'] 1, ['w'])])
      (.slice .str) ⟨['a'], ['a'], default, []⟩ =
      .ok (.vslice [.vstr ['w'], .vstr ['w']]) ∧
    (['w'] : Str) ≠ ['$', '{', 'a', '[', '1', ']', '}'] :=
  ⟨rfl, rfl, by decide⟩

/-- C5 (amended): for a store holding exactly `a[0] = x` and `a[1] = y`,
binding `a` as a sequence of strings collects indices 0 and 1 in order,
stops without error at the absent index 2, and yields exactly `[x, y]`
provided `x` and `y` are placeholder-free (in general each element is the
placeholder-resolution of the stored value). -/
theorem claim_C5 (x y : Str) (hx : hasSub x ['$', '{'] = false)
    (hy : hasSub y ['$', '{'] = false) :
    BindValue [] [] 3 (Properties.mk [(idxKey ['a'] 0, x), (idxKey ['a'] 1, y)])
      (.slice .str) ⟨['a'], ['a'], default, []⟩ =
      .ok (.vslice [.vstr x, .vstr y]) := by
  set p : Properties := ⟨[(idxKey ['a'] 0, x), (idxKey ['a'] 1, y)]⟩ with hp
  set bv := BindValue ([] : ValidatorReg) ([] : SplitterReg) 2 with hbv
  have h0 : bv p .str ⟨idxKey ['a'] 0, idxKey ['a'] 0, default, []⟩ =
      .ok (.vstr x) := by
    have hr : resolve 1 p ⟨idxKey ['a'] 0, idxKey ['a'] 0, default, []⟩ = .ok x :=
      resolve_zeroTag_of_no_sub p _ _ x hx rfl rfl
    show (match resolve 1 p ⟨idxKey ['a'] 0, idxKey ['a'] 0, default, []⟩ with
      | .error e => (Except.error e : Except BindErr Val)
      | .ok val =>
        match Validate [] ([] : StructTag) (.vstr val) with
        | some e => .error e
        | none => .ok (.vstr val)) = .ok (.vstr x)
    rw [hr]
    rfl
  have h1 : bv p .str ⟨idxKey ['a'] 1, idxKey ['a'] 1, default, []⟩ =
      .ok (.vstr y) := by
    have hr : resolve 1 p ⟨idxKey ['a'] 1, idxKey ['a'] 1, default, []⟩ = .ok y :=
      resolve_zeroTag_of_no_sub p _ _ y hy rfl rfl
    show (match resolve 1 p ⟨idxKey ['a'] 1, idxKey ['a'] 1, default, []⟩ with
      | .error e => (Except.error e : Except BindErr Val)
      | .ok val =>
        match Validate [] ([] : StructTag) (.vstr val) with
        | some e => .error e
        | none => .ok (.vstr val)) = .ok (.vstr y)
    rw [hr]
    rfl
  have h2 : bv p .str ⟨idxKey ['a'] 2, idxKey ['a'] 2, default, []⟩ =
      .error (.notExist (idxKey ['a'] 2)) := rfl
  have hl2 : sliceLoop bv p .str ['a'] ['a'] 1 2 = .ok [] := by
    show (match bv p .str ⟨idxKey ['a'] 2, idxKey ['a'] 2, default, []⟩ with
      | .error e => if isNotExist e then (Except.ok [] : Except BindErr (List Val))
          else .error e
      | .ok v =>
        match sliceLoop bv p .str ['a'] ['a'] 0 3 with
        | .error e => .error e
        | .ok vs => .ok (v :: vs)) = .ok []
    rw [h2]
    rfl
  have hl1 : sliceLoop bv p .str ['a'] ['a'] 2 1 = .ok [.vstr y] := by
    show (match bv p .str ⟨idxKey ['a'] 1, idxKey ['a'] 1, default, []⟩ with
      | .error e => if isNotExist e then (Except.ok [] : Except BindErr (List Val))
          else .error e
      | .ok v =>
        match sliceLoop bv p .str ['a'] ['a'] 1 2 with
        | .error e => .error e
        | .ok vs => .ok (v :: vs)) = .ok [.vstr y]
    rw [h1, hl2]
  have hl0 : sliceLoop bv p .str ['a'] ['a'] 3 0 = .ok [.vstr x, .vstr y] := by
    show (match bv p .str ⟨idxKey ['a'] 0, idxKey ['a'] 0, default, []⟩ with
      | .error e => if isNotExist e then (Except.ok [] : Except BindErr (List Val))
          else .error e
      | .ok v =>
        match sliceLoop bv p .str ['a'] ['a'] 2 1 with
        | .error e => .error e
        | .ok vs => .ok (v :: vs)) = .ok [.vstr x, .vstr y]
    rw [h0, hl1]
  have hbs : bindSlice [] [] bv p .str ⟨['a'], ['a'], default, []⟩ =
      (none, [Val.vslice [.vstr x, .vstr y]]) := by
    show (match sliceLoop bv p .str ['a'] ['a'] 3 0 with
      | .error e => ((some e, []) : Option BindErr × List Val)
      | .ok elems =>
        match Validate [] ([] : StructTag) (.vslice elems) with
        | some e => (some e, [])
        | none => (none, [Val.vslice elems])) =
      (none, [Val.vslice [.vstr x, .vstr y]])
    rw [hl0]
    rfl
  show (match bindSlice [] [] bv p .str ⟨['a'], ['a'], default, []⟩ with
    | (some e, _) => (Except.error e : Except BindErr Val)
    | (none, tr) => .ok (tr.headD (.vslice []))) =
    .ok (.vslice [.vstr x, .vstr y])
  rw [hbs]
  rfl

/-- Witness for C5 at concrete placeholder-free values. -/
theorem claim_C5_witness :
    BindValue [] [] 3
      (Properties.mk [(idxKey ['a'] 0, ['u']), (idxKey ['a'] 1, ['v'])])
      (.slice .str) ⟨['a'], ['a'], default, []⟩ =
      .ok (.vslice [.vstr ['u'], .vstr ['v']]) :=
  claim_C5 ['u'] ['v'] (by decide) (by decide)

end GoSpring

namespace GoSpring

/-- `Validate` returns exactly the first failure among the registered
validators whose tag name appears in the struct tag, in registry order
(`none` when every applicable validator passes). -/
theorem Validate_eq_head (reg : ValidatorReg) (tag : StructTag) (v : Val) :
    Validate reg tag v =
      (reg.filterMap (fun nf => (lookupTag tag nf.1).bind (fun s => nf.2 s v))).head? := by
  induction reg with
  | nil => rfl
  | cons nf rest ih =>
    obtain ⟨name, f⟩ := nf
    rw [Validate]
    cases hl : lookupTag tag name with
    | none =>
      simp only [List.filterMap_cons, hl, Option.none_bind]
      exact ih
    | some s =>
      cases hf : f s v with
      | none =>
        simp only [List.filterMap_cons, hl, Option.some_bind, hf]
        exact ih
      | some err =>
        simp only [List.filterMap_cons, hl, Option.some_bind, hf, List.head?_cons]

/-- C7: at a leaf bind, every registered validator whose tag name appears in
the field's struct tag is applied to the converted value — the outcome of
`Validate` is exactly the first failure among them in registry order (the
Go registry is a map with unspecified `range` order, embedded as a list) —
and a failure aborts the bind with that error, while all-pass lets the
value through. -/
theorem claim_C7 (reg : ValidatorReg) (splitters : SplitterReg) (fuel : Nat)
    (p : Properties) (param : BindParam) :
    (∀ (tag : StructTag) (v : Val),
      Validate reg tag v =
        (reg.filterMap (fun nf => (lookupTag tag nf.1).bind (fun s => nf.2 s v))).head?) ∧
    (∀ val e, resolve fuel p param = .ok val →
      Validate reg param.Validate (.vstr val) = some e →
      BindValue reg splitters (fuel + 1) p .str param = .error e) ∧
    (∀ val, resolve fuel p param = .ok val →
      Validate reg param.Validate (.vstr val) = none →
      BindValue reg splitters (fuel + 1) p .str param = .ok (.vstr val)) := by
  refine ⟨fun tag v => Validate_eq_head reg tag v, ?_, ?_⟩
  · intro val e hres hval
    show (match resolve fuel p param with
      | .error e => (Except.error e : Except BindErr Val)
      | .ok val =>
        match Validate reg param.Validate (.vstr val) with
        | some e => .error e
        | none => .ok (.vstr val)) = .error e
    rw [hres]
    show (match Validate reg param.Validate (.vstr val) with
      | some e => (Except.error e : Except BindErr Val)
      | none => .ok (.vstr val)) = .error e
    rw [hval]
  · intro val hres hval
    show (match resolve fuel p param with
      | .error e => (Except.error e : Except BindErr Val)
      | .ok val =>
        match Validate reg param.Validate (.vstr val) with
        | some e => .error e
        | none => .ok (.vstr val)) = .ok (.vstr val)
    rw [hres]
    show (match Validate reg param.Validate (.vstr val) with
      | some e => (Except.error e : Except BindErr Val)
      | none => .ok (.vstr val)) = .ok (.vstr val)
    rw [hval]

/-- Witness for C7: two registered validators, both matching and failing;
the first one's error is reported and aborts the leaf bind. -/
theorem claim_C7_witness :
    BindValue
      [(("v1" : String), fun _ _ => some (.validateFailed ['1'])),
       (("v2" : String), fun _ _ => some (.validateFailed ['2']))] [] 1
      (Properties.mk [(['a'], [])]) .str
      ⟨['a'], [], default, [("v1", []), ("v2", [])]⟩ =
      .error (.validateFailed ['1']) :=
  (claim_C7
      [(("v1" : String), fun _ _ => some (.validateFailed ['1'])),
       (("v2" : String), fun _ _ => some (.validateFailed ['2']))] [] 0
      (Properties.mk [(['a'], [])])
      ⟨['a'], [], default, [("v1", []), ("v2", [])]⟩).2.1 [] _ rfl rfl

end GoSpring

namespace GoSpring

/-- `bindSlice` assigns the target at most once: never on an error return,
and on a nil return exactly once with the fully built slice, which either
passed the container validator or is the empty slice of the
empty/absent-source path (where the Go code assigns before validating). -/
theorem bindSlice_atomic (reg : ValidatorReg) (splitters : SplitterReg)
    (bv : Properties → Ty → BindParam → Except BindErr Val)
    (p : Properties) (et : Ty) (param : BindParam) :
    (∀ e, (bindSlice reg splitters bv p et param).1 = some e →
      (bindSlice reg splitters bv p et param).2 = []) ∧
    ((bindSlice reg splitters bv p et param).1 = none →
      ∃ xs, (bindSlice reg splitters bv p et param).2 = [Val.vslice xs] ∧
        (Validate reg param.Validate (.vslice xs) = none ∨
          (xs = [] ∧ getSlice splitters p et param = .ok none))) := by
  rcases hg : getSlice splitters p et param with e' | op'
  · have hbs : bindSlice reg splitters bv p et param = (some e', []) := by
      simp only [bindSlice, hg]
    exact ⟨fun e _ => by rw [hbs], fun h => absurd (hbs ▸ h) (by simp)⟩
  · cases op' with
    | none =>
      have hbs : bindSlice reg splitters bv p et param = (none, [Val.vslice []]) := by
        simp only [bindSlice, hg]
      refine ⟨fun e h => absurd (hbs ▸ h) (by simp), fun _ => ⟨[], by rw [hbs], Or.inr ⟨rfl, rfl⟩⟩⟩
    | some p' =>
      rcases hl : sliceLoop bv p' et param.Key param.Path (p'.entries.length + 1) 0
        with e' | elems
      · have hbs : bindSlice reg splitters bv p et param = (some e', []) := by
          simp only [bindSlice, hg, hl]
        exact ⟨fun e _ => by rw [hbs], fun h => absurd (hbs ▸ h) (by simp)⟩
      · cases hv : Validate reg param.Validate (.vslice elems) with
        | none =>
          have hbs : bindSlice reg splitters bv p et param =
              (none, [Val.vslice elems]) := by
            simp only [bindSlice, hg, hl, hv]
          exact ⟨fun e h => absurd (hbs ▸ h) (by simp),
            fun _ => ⟨elems, by rw [hbs], Or.inl hv⟩⟩
        | some e' =>
          have hbs : bindSlice reg splitters bv p et param = (some e', []) := by
            simp only [bindSlice, hg, hl, hv]
          exact ⟨fun e _ => by rw [hbs], fun h => absurd (hbs ▸ h) (by simp)⟩

/-- `bindMap` assigns the target at most once: never on an error return,
and on a nil return exactly once with the fully built map, after the
container validator passed. -/
theorem bindMap_atomic (reg : ValidatorReg)
    (bv : Properties → Ty → BindParam → Except BindErr Val)
    (p : Properties) (et : Ty) (param : BindParam) :
    (∀ e, (bindMap reg bv p et param).1 = some e →
      (bindMap reg bv p et param).2 = []) ∧
    ((bindMap reg bv p et param).1 = none →
      ∃ m, (bindMap reg bv p et param).2 = [Val.vmap m] ∧
        Validate reg param.Validate (.vmap m) = none) := by
  by_cases hd : param.Tag.HasDef = true ∧ param.Tag.Def ≠ []
  · have hbs : bindMap reg bv p et param = (some .unsupported, []) := by
      simp only [bindMap, if_pos hd]
    exact ⟨fun e _ => by rw [hbs], fun h => absurd (hbs ▸ h) (by simp)⟩
  · rcases hl : mapLoop bv p et param (SubKeys p param.Key) with e' | entries
    · have hbs : bindMap reg bv p et param = (some e', []) := by
        simp only [bindMap, if_neg hd, hl]
      exact ⟨fun e _ => by rw [hbs], fun h => absurd (hbs ▸ h) (by simp)⟩
    · cases hv : Validate reg param.Validate (.vmap entries) with
      | none =>
        have hbs : bindMap reg bv p et param = (none, [Val.vmap entries]) := by
          simp only [bindMap, if_neg hd, hl, hv]
        exact ⟨fun e h => absurd (hbs ▸ h) (by simp),
          fun _ => ⟨entries, by rw [hbs], hv⟩⟩
      | some e' =>
        have hbs : bindMap reg bv p et param = (some e', []) := by
          simp only [bindMap, if_neg hd, hl, hv]
        exact ⟨fun e _ => by rw [hbs], fun h => absurd (hbs ▸ h) (by simp)⟩

/-- Counterexample to C9 as stated: with the store holding `a = ""` (the
empty-source path of `getSlice`) and a registered container validator that
rejects everything, `bindSlice` assigns the empty slice to the target and
returns no error, although the container-level validator — which never
ran — fails on the assigned value. -/
theorem claim_C9_counterexample :
    bindSlice [(("always" : String), fun _ _ => some (.validateFailed ['v']))] []
      (fun _ _ _ => .error .fuel) (Properties.mk [(['a'], [])]) .str
      ⟨['a'], [], default, [("always", [])]⟩ = (none, [Val.vslice []]) ∧
    Validate [(("always" : String), fun _ _ => some (.validateFailed ['v']))]
      [("always", [])] (Val.vslice []) = some (.validateFailed ['v']) :=
  ⟨rfl, rfl⟩

/-- C9 (amended): binding into a slice or map target is atomic — on any
element-binding or container-validation error nothing is assigned to the
target, and on success the target is assigned exactly once with the fully
built container, which passed the container validator except on the
empty/absent-source slice path, where the Go code assigns the empty slice
before (and instead of) validating. -/
theorem claim_C9 (reg : ValidatorReg) (splitters : SplitterReg)
    (bv : Properties → Ty → BindParam → Except BindErr Val)
    (p : Properties) (et : Ty) (param : BindParam) :
    ((∀ e, (bindSlice reg splitters bv p et param).1 = some e →
      (bindSlice reg splitters bv p et param).2 = []) ∧
    ((bindSlice reg splitters bv p et param).1 = none →
      ∃ xs, (bindSlice reg splitters bv p et param).2 = [Val.vslice xs] ∧
        (Validate reg param.Validate (.vslice xs) = none ∨
          (xs = [] ∧ getSlice splitters p et param = .ok none)))) ∧
    ((∀ e, (bindMap reg bv p et param).1 = some e →
      (bindMap reg bv p et param).2 = []) ∧
    ((bindMap reg bv p et param).1 = none →
      ∃ m, (bindMap reg bv p et param).2 = [Val.vmap m] ∧
        Validate reg param.Validate (.vmap m) = none)) :=
  ⟨bindSlice_atomic reg splitters bv p et param, bindMap_atomic reg bv p et param⟩

/-- Witness for C9: a failing `getSlice` (absent key, no default) assigns
nothing to the slice target. -/
theorem claim_C9_witness :
    (bindSlice [] [] (fun _ _ _ => .error .fuel) (Properties.mk []) .str
      ⟨['a'], [], default, []⟩).2 = [] :=
  (claim_C9 [] [] (fun _ _ _ => .error .fuel) (Properties.mk []) .str
    ⟨['a'], [], default, []⟩).1.1 (.notExist ['a']) rfl

end GoSpring

namespace GoSpring

/-! ## Configer sorting (`SpringCore` logger file)

The `Configer` struct is reduced to the fields the sorter reads (`name`,
`before`, `after`); Go's `container/list` of `*Configer` pointers is
embedded as a `List Configer`, pointer equality as structural equality
(sound on `Nodup` inputs, where distinct elements stand for distinct
pointers).  The panic on a discovered cycle is embedded as an `Except`
error carrying the list of names the Go code writes into the panic
message; the `[]` error marks fuel exhaustion of the embedding, and the
fuel supplied by `sortConfigers` is proved sufficient. -/

/-- A Configer unit, reduced to the fields `sortConfigers` reads. -/
structure Configer where
  name : String
  before : List String
  after : List String
deriving DecidableEq, Repr

/-- `c` must run before `u`: `u`'s name is in `c.before`, or `c`'s name in
`u.after` (the two scans of `getBeforeConfigers`). -/
def mustPrecede (c u : Configer) : Prop :=
  u.name ∈ c.before ∨ c.name ∈ u.after

instance (c u : Configer) : Decidable (mustPrecede c u) := by
  unfold mustPrecede; infer_instance

/-- `getBeforeConfigers`: every unit of the collection that must run
before `current` (with the same duplications as the Go double loop). -/
def getBeforeConfigers (configers : List Configer) (current : Configer) :
    List Configer :=
  configers.flatMap (fun c =>
    (c.before.filter (fun n => current.name == n)).map (fun _ => c) ++
    (current.after.filter (fun n => c.name == n)).map (fun _ => c))

/-- The names written into the cycle panic: the `processing` chain from the
first occurrence of the repeated unit, then that unit's name again. -/
def cycleNames (processing : List Configer) (c : Configer) : List String :=
  (processing.drop (List.indexOf c processing)).map (fun x => x.name) ++ [c.name]

/-- The three worklists of the sort (`toSort`, `sorted`, `processing`). -/
structure SortState where
  toSort : List Configer
  sorted : List Configer
  processing : List Configer
deriving Repr

/-- The dependency loop of `sortConfigersByAfter`, parameterized by the
recursive call `sba`: for each unit that must precede the current one,
panic if it is already on the processing stack, recurse if it is neither
sorted nor gone from `toSort`, skip otherwise. -/
def processDeps (sba : SortState → Configer → Except (List String) SortState) :
    SortState → List Configer → Except (List String) SortState
  | st, [] => .ok st
  | st, c :: rest =>
    if c ∈ st.processing then .error (cycleNames st.processing c)
    else if c ∉ st.sorted ∧ c ∈ st.toSort then
      match sba st c with
      | .error e => .error e
      | .ok st' => processDeps sba st' rest
    else processDeps sba st rest

/-- `sortConfigersByAfter`, with fuel: push `current` onto `processing`,
handle every unit that must precede it, then move `current` off
`processing` and `toSort` and append it to `sorted`. -/
def sortByAfter (configers : List Configer) :
    Nat → SortState → Configer → Except (List String) SortState
  | 0, _, _ => .error []
  | fuel + 1, st, current =>
    let st1 : SortState := { st with processing := st.processing ++ [current] }
    match processDeps (sortByAfter configers fuel) st1
        (getBeforeConfigers configers current) with
    | .error e => .error e
    | .ok st2 =>
      .ok { toSort := st2.toSort.erase current,
            sorted := st2.sorted ++ [current],
            processing := st2.processing.erase current }

/-- The worklist loop of `sortConfigers`: pop the front of `toSort` and
sort it, until `toSort` is empty. -/
def sortLoop (configers : List Configer) :
    Nat → SortState → Except (List String) (List Configer)
  | 0, st =>
    match st.toSort with
    | [] => .ok st.sorted
    | _ :: _ => .error []
  | fuel + 1, st =>
    match st.toSort with
    | [] => .ok st.sorted
    | current :: rest =>
      match sortByAfter configers (configers.length + 1)
          { st with toSort := rest } current with
      | .error e => .error e
      | .ok st' => sortLoop configers fuel st'

/-- `sortConfigers`: sort the collection, starting from `toSort` holding
every unit. -/
def sortConfigers (configers : List Configer) :
    Except (List String) (List Configer) :=
  sortLoop configers (configers.length + 1) ⟨configers, [], []⟩

/-- The precedence relation restricted to a collection. -/
def precIn (l : List Configer) (a b : Configer) : Prop :=
  a ∈ l ∧ b ∈ l ∧ mustPrecede a b

/-- A collection's precedence relation contains a cycle. -/
def HasCycle (l : List Configer) : Prop :=
  ∃ c, Relation.TransGen (precIn l) c c

/-- Every already-sorted unit has all of its in-collection predecessors
sorted strictly before it. -/
def TopoClosed (configers sorted : List Configer) : Prop :=
  ∀ (i : Nat) (hi : i < sorted.length) (c : Configer), c ∈ configers →
    mustPrecede c sorted[i] → c ∈ sorted.take i

end GoSpring

namespace GoSpring

theorem mem_getBeforeConfigers {configers : List Configer} {current c : Configer} :
    c ∈ getBeforeConfigers configers current ↔ c ∈ configers ∧ mustPrecede c current := by
  simp only [getBeforeConfigers, List.mem_flatMap, List.mem_append, List.mem_map,
    List.mem_filter, mustPrecede]
  constructor
  · rintro ⟨a, ha, ⟨n, ⟨hn, hbeq⟩, rfl⟩ | ⟨n, ⟨hn, hbeq⟩, rfl⟩⟩
    · exact ⟨ha, Or.inl (by rw [eq_of_beq hbeq]; exact hn)⟩
    · exact ⟨ha, Or.inr (by rw [eq_of_beq hbeq]; exact hn)⟩
  · rintro ⟨hc, hn | hn⟩
    · exact ⟨c, hc, Or.inl ⟨current.name, ⟨hn, by simp⟩, rfl⟩⟩
    · exact ⟨c, hc, Or.inr ⟨c.name, ⟨hn, by simp⟩, rfl⟩⟩

/-- Invariants of a state between two dependency-loop iterations. -/
structure MInv (configers : List Configer) (st : SortState) : Prop where
  ts_nodup : st.toSort.Nodup
  ts_sub : ∀ x ∈ st.toSort, x ∈ configers
  so_nodup : st.sorted.Nodup
  so_sub : ∀ x ∈ st.sorted, x ∈ configers
  pr_nodup : st.processing.Nodup
  pr_sub : ∀ x ∈ st.processing, x ∈ configers
  disj_so_ts : ∀ x ∈ st.sorted, x ∉ st.toSort
  disj_pr_so : ∀ x ∈ st.processing, x ∉ st.sorted
  cover : ∀ x ∈ configers, x ∈ st.sorted ∨ x ∈ st.toSort ∨ x ∈ st.processing
  chain : List.Chain' (fun a b => mustPrecede b a) st.processing
  topo : TopoClosed configers st.sorted

/-- Invariants at entry of `sortByAfter` for a given `current`.  (The
top-level worklist call pops `current` off `toSort` first, so unlike
`MInv` the coverage clause lists `current` as a fourth alternative.) -/
structure SInv (configers : List Configer) (st : SortState) (current : Configer) :
    Prop where
  ts_nodup : st.toSort.Nodup
  ts_sub : ∀ x ∈ st.toSort, x ∈ configers
  so_nodup : st.sorted.Nodup
  so_sub : ∀ x ∈ st.sorted, x ∈ configers
  pr_nodup : st.processing.Nodup
  pr_sub : ∀ x ∈ st.processing, x ∈ configers
  disj_so_ts : ∀ x ∈ st.sorted, x ∉ st.toSort
  disj_pr_so : ∀ x ∈ st.processing, x ∉ st.sorted
  topo : TopoClosed configers st.sorted
  cur_mem : current ∈ configers
  cur_not_so : current ∉ st.sorted
  cur_not_pr : current ∉ st.processing
  cover : ∀ x ∈ configers,
    x ∈ st.sorted ∨ x ∈ st.toSort ∨ x ∈ st.processing ∨ x = current
  chain : List.Chain' (fun a b => mustPrecede b a) (st.processing ++ [current])

/-- Postcondition of a successful `sortByAfter` call. -/
structure SOut (configers : List Configer) (st : SortState) (current : Configer)
    (st' : SortState) : Prop where
  so_pfx : ∃ Δ, st'.sorted = st.sorted ++ Δ
  cur_so : current ∈ st'.sorted
  new_not_pr : ∀ x ∈ st'.sorted, x ∉ st.sorted → x ∉ st.processing
  new_src : ∀ x ∈ st'.sorted, x ∉ st.sorted → x = current ∨ x ∈ st.toSort
  pr_eq : st'.processing = st.processing
  ts_sub : ∀ x ∈ st'.toSort, x ∈ st.toSort
  ts_reloc : ∀ x ∈ st.toSort, x ∉ st'.toSort → x ∈ st'.sorted
  mset : (st'.sorted : Multiset Configer) + (st'.toSort : Multiset Configer) =
    (st.sorted : Multiset Configer) + (st.toSort : Multiset Configer) +
      (if current ∈ st.toSort then 0 else {current})
  ts_nodup : st'.toSort.Nodup
  so_nodup : st'.sorted.Nodup
  so_sub : ∀ x ∈ st'.sorted, x ∈ configers
  disj_so_ts : ∀ x ∈ st'.sorted, x ∉ st'.toSort
  topo : TopoClosed configers st'.sorted

/-- Pushing `current` onto `processing` turns an `SInv` into an `MInv`. -/
theorem SInv.push {configers : List Configer} {st : SortState} {current : Configer}
    (h : SInv configers st current) :
    MInv configers { st with processing := st.processing ++ [current] } := by
  refine ⟨h.ts_nodup, h.ts_sub, h.so_nodup, h.so_sub, ?_, ?_, h.disj_so_ts, ?_, ?_,
    h.chain, h.topo⟩
  · rw [List.nodup_append]
    refine ⟨h.pr_nodup, List.nodup_singleton _, ?_⟩
    intro x hx hmem
    rw [List.mem_singleton.mp hmem] at hx
    exact h.cur_not_pr hx
  · intro x hx
    rcases List.mem_append.mp hx with hx | hx
    · exact h.pr_sub x hx
    · rw [List.mem_singleton.mp hx]; exact h.cur_mem
  · intro x hx
    rcases List.mem_append.mp hx with hx | hx
    · exact h.disj_pr_so x hx
    · rw [List.mem_singleton.mp hx]; exact h.cur_not_so
  · intro x hx
    rcases h.cover x hx with h | h | h | h
    · exact Or.inl h
    · exact Or.inr (Or.inl h)
    · exact Or.inr (Or.inr (List.mem_append.mpr (Or.inl h)))
    · exact Or.inr (Or.inr (List.mem_append.mpr (Or.inr (List.mem_singleton.mpr h))))

/-- Along a descending `mustPrecede` chain contained in the collection,
every member is reachable (transitively, within the collection) from the
last element — or is the last element. -/
theorem chain_last_reaches {configers : List Configer} :
    ∀ (l : List Configer), List.Chain' (fun a b => mustPrecede b a) l →
      (∀ x ∈ l, x ∈ configers) → ∀ last, l.getLast? = some last →
      ∀ c ∈ l, c = last ∨ Relation.TransGen (precIn configers) last c := by
  intro l
  induction l with
  | nil => intro _ _ last hlast; simp at hlast
  | cons a t ih =>
    intro hchain hsub last hlast c hc
    cases t with
    | nil =>
      simp at hlast hc
      subst hlast; subst hc
      exact Or.inl rfl
    | cons b u =>
      have hchain' : List.Chain' (fun x y => mustPrecede y x) (b :: u) :=
        (List.chain'_cons.mp hchain).2
      have hba : mustPrecede b a := (List.chain'_cons.mp hchain).1
      have hlast' : (b :: u).getLast? = some last := by
        rwa [List.getLast?_cons_cons] at hlast
      have hsub' : ∀ x ∈ b :: u, x ∈ configers := fun x hx =>
        hsub x (List.mem_cons_of_mem a hx)
      rcases List.mem_cons.mp hc with rfl | hc'
      · -- c = a: last reaches b (or b = last), and b ≺ a
        have hb : precIn configers b c :=
          ⟨hsub' b (List.mem_cons_self b u), hsub c (List.mem_cons_self c _), hba⟩
        rcases ih hchain' hsub' last hlast' b (List.mem_cons_self b u) with rfl | hr
        · exact Or.inr (Relation.TransGen.single hb)
        · exact Or.inr (Relation.TransGen.tail hr hb)
      · exact ih hchain' hsub' last hlast' c hc'

/-- Hitting a unit already on the processing stack exhibits a genuine
precedence cycle in the collection. -/
theorem cycle_of_mem_processing {configers : List Configer}
    {l : List Configer} {c last : Configer}
    (hchain : List.Chain' (fun a b => mustPrecede b a) l)
    (hsub : ∀ x ∈ l, x ∈ configers) (hcmem : c ∈ l)
    (hlast : l.getLast? = some last) (hlastmem : last ∈ configers)
    (hdep : mustPrecede c last) : HasCycle configers := by
  have hedge : precIn configers c last := ⟨hsub c hcmem, hlastmem, hdep⟩
  rcases chain_last_reaches l hchain hsub last hlast c hcmem with rfl | hr
  · exact ⟨c, Relation.TransGen.single hedge⟩
  · exact ⟨last, Relation.TransGen.trans hr (Relation.TransGen.single hedge)⟩

end GoSpring

namespace GoSpring

/-- Entry invariant for a nested `sortByAfter` call on a dependency. -/
theorem nested_SInv {configers : List Configer} {st : SortState} {c : Configer}
    (m : MInv configers st) (hc_cfg : c ∈ configers) (hc_pr : c ∉ st.processing)
    (hc_so : c ∉ st.sorted) (_hc_ts : c ∈ st.toSort)
    (hdep : ∀ last, st.processing.getLast? = some last → mustPrecede c last) :
    SInv configers st c where
  ts_nodup := m.ts_nodup
  ts_sub := m.ts_sub
  so_nodup := m.so_nodup
  so_sub := m.so_sub
  pr_nodup := m.pr_nodup
  pr_sub := m.pr_sub
  disj_so_ts := m.disj_so_ts
  disj_pr_so := m.disj_pr_so
  topo := m.topo
  cur_mem := hc_cfg
  cur_not_so := hc_so
  cur_not_pr := hc_pr
  cover := fun x hx => (m.cover x hx).elim Or.inl
    (fun h => h.elim (fun h' => Or.inr (Or.inl h'))
      (fun h' => Or.inr (Or.inr (Or.inl h'))))
  chain := by
    rw [List.chain'_append]
    refine ⟨m.chain, List.chain'_singleton _, ?_⟩
    intro x hx y hy
    rw [List.head?_cons] at hy
    rw [Option.mem_def] at hx hy
    injection hy with hy
    subst hy
    exact hdep x hx

/-- `MInv` is preserved across a successful nested call. -/
theorem MInv.after_sout {configers : List Configer} {st st' : SortState}
    {c : Configer} (m : MInv configers st) (so : SOut configers st c st') :
    MInv configers st' where
  ts_nodup := so.ts_nodup
  ts_sub := fun x hx => m.ts_sub x (so.ts_sub x hx)
  so_nodup := so.so_nodup
  so_sub := so.so_sub
  pr_nodup := by rw [so.pr_eq]; exact m.pr_nodup
  pr_sub := by rw [so.pr_eq]; exact m.pr_sub
  disj_so_ts := so.disj_so_ts
  disj_pr_so := fun x hx hxso => by
    rw [so.pr_eq] at hx
    by_cases hso : x ∈ st.sorted
    · exact m.disj_pr_so x hx hso
    · exact so.new_not_pr x hxso hso hx
  cover := fun x hx => by
    rcases m.cover x hx with h | h | h
    · obtain ⟨Δ, hΔ⟩ := so.so_pfx
      exact Or.inl (hΔ ▸ List.mem_append.mpr (Or.inl h))
    · by_cases hts : x ∈ st'.toSort
      · exact Or.inr (Or.inl hts)
      · exact Or.inl (so.ts_reloc x h hts)
    · rw [← so.pr_eq] at h
      exact Or.inr (Or.inr h)
  chain := by rw [so.pr_eq]; exact m.chain
  topo := so.topo

/-- Accumulated effect of the dependency loop on the state. -/
structure POut (configers : List Configer) (st st2 : SortState) : Prop where
  minv : MInv configers st2
  pr_eq : st2.processing = st.processing
  so_pfx : ∃ Δ, st2.sorted = st.sorted ++ Δ
  new_not_pr : ∀ x ∈ st2.sorted, x ∉ st.sorted → x ∉ st.processing
  new_src : ∀ x ∈ st2.sorted, x ∉ st.sorted → x ∈ st.toSort
  ts_sub : ∀ x ∈ st2.toSort, x ∈ st.toSort
  ts_reloc : ∀ x ∈ st.toSort, x ∉ st2.toSort → x ∈ st2.sorted
  mset : (st2.sorted : Multiset Configer) + (st2.toSort : Multiset Configer) =
    (st.sorted : Multiset Configer) + (st.toSort : Multiset Configer)

theorem POut.base {configers : List Configer} {st : SortState}
    (m : MInv configers st) : POut configers st st where
  minv := m
  pr_eq := rfl
  so_pfx := ⟨[], by simp⟩
  new_not_pr := fun x hx hxn => absurd hx hxn
  new_src := fun x hx hxn => absurd hx hxn
  ts_sub := fun _ hx => hx
  ts_reloc := fun x hx hnx => absurd hx hnx
  mset := rfl

theorem SOut.toPOut {configers : List Configer} {st st' : SortState} {c : Configer}
    (so : SOut configers st c st') (m : MInv configers st) (hc : c ∈ st.toSort) :
    POut configers st st' where
  minv := m.after_sout so
  pr_eq := so.pr_eq
  so_pfx := so.so_pfx
  new_not_pr := so.new_not_pr
  new_src := fun x hx hxn => (so.new_src x hx hxn).elim (fun he => he ▸ hc) id
  ts_sub := so.ts_sub
  ts_reloc := so.ts_reloc
  mset := by rw [so.mset, if_pos hc, add_zero]

theorem POut.trans {configers : List Configer} {st st' st2 : SortState}
    (h1 : POut configers st st') (h2 : POut configers st' st2) :
    POut configers st st2 where
  minv := h2.minv
  pr_eq := h2.pr_eq.trans h1.pr_eq
  so_pfx := by
    obtain ⟨d1, hd1⟩ := h1.so_pfx
    obtain ⟨d2, hd2⟩ := h2.so_pfx
    exact ⟨d1 ++ d2, by rw [hd2, hd1, List.append_assoc]⟩
  new_not_pr := fun x hx hxn => by
    by_cases hmid : x ∈ st'.sorted
    · exact h1.new_not_pr x hmid hxn
    · rw [← h1.pr_eq]
      exact h2.new_not_pr x hx hmid
  new_src := fun x hx hxn => by
    by_cases hmid : x ∈ st'.sorted
    · exact h1.new_src x hmid hxn
    · exact h1.ts_sub x (h2.new_src x hx hmid)
  ts_sub := fun x hx => h1.ts_sub x (h2.ts_sub x hx)
  ts_reloc := fun x hx hnx => by
    by_cases hmid : x ∈ st'.toSort
    · exact h2.ts_reloc x hmid hnx
    · obtain ⟨d2, hd2⟩ := h2.so_pfx
      rw [hd2]
      exact List.mem_append.mpr (Or.inl (h1.ts_reloc x hx hmid))
  mset := h2.mset.trans h1.mset

/-- Soundness of the dependency loop: every successful run extends
`sorted` conservatively, leaves `processing` alone, and ends with every
dependency sorted. -/
theorem processDeps_sound (configers : List Configer)
    (sba : SortState → Configer → Except (List String) SortState)
    (hsba : ∀ st c st', SInv configers st c → sba st c = .ok st' →
      SOut configers st c st') :
    ∀ (deps : List Configer) (st st2 : SortState),
      MInv configers st →
      (∀ c ∈ deps, c ∈ configers) →
      (∀ c ∈ deps, ∀ last, st.processing.getLast? = some last → mustPrecede c last) →
      processDeps sba st deps = .ok st2 →
      POut configers st st2 ∧ ∀ c ∈ deps, c ∈ st2.sorted := by
  intro deps
  induction deps with
  | nil =>
    intro st st2 m _ _ h
    rw [processDeps] at h
    injection h with h
    subst h
    exact ⟨POut.base m, fun c hc => absurd hc (List.not_mem_nil c)⟩
  | cons c rest ih =>
    intro st st2 m hdsub hdep h
    rw [processDeps] at h
    split at h
    · exact absurd h (by simp)
    · split at h
      · rename_i hnotpr hcond
        obtain ⟨hcso, hcts⟩ := hcond
        cases hsb : sba st c with
        | error e => rw [hsb] at h; exact absurd h (by simp)
        | ok st' =>
          rw [hsb] at h
          have hsinv : SInv configers st c :=
            nested_SInv m (hdsub c (List.mem_cons_self c rest)) hnotpr hcso hcts
              (hdep c (List.mem_cons_self c rest))
          have so := hsba st c st' hsinv hsb
          have p1 : POut configers st st' := so.toPOut m hcts
          have hrec := ih st' st2 p1.minv
            (fun d hd => hdsub d (List.mem_cons_of_mem c hd))
            (fun d hd last hlast => hdep d (List.mem_cons_of_mem c hd) last
              (by rwa [p1.pr_eq] at hlast)) h
          refine ⟨p1.trans hrec.1, ?_⟩
          intro d hd
          rcases List.mem_cons.mp hd with rfl | hd'
          · obtain ⟨d2, hd2⟩ := hrec.1.so_pfx
            rw [hd2]
            exact List.mem_append.mpr (Or.inl so.cur_so)
          · exact hrec.2 d hd'
      · rename_i hnotpr hcond
        have hcs : c ∈ st.sorted := by
          by_contra hcso
          rcases m.cover c (hdsub c (List.mem_cons_self c rest)) with hh | hh | hh
          · exact hcso hh
          · exact hcond ⟨hcso, hh⟩
          · exact hnotpr hh
        have hrec := ih st st2 m
          (fun d hd => hdsub d (List.mem_cons_of_mem c hd))
          (fun d hd => hdep d (List.mem_cons_of_mem c hd)) h
        refine ⟨hrec.1, ?_⟩
        intro d hd
        rcases List.mem_cons.mp hd with rfl | hd'
        · obtain ⟨d2, hd2⟩ := hrec.1.so_pfx
          rw [hd2]
          exact List.mem_append.mpr (Or.inl hcs)
        · exact hrec.2 d hd'

end GoSpring

namespace GoSpring

/-- Appending a unit whose in-collection predecessors are all sorted keeps
the sorted list topologically closed. -/
theorem TopoClosed.append {configers sorted : List Configer}
    (h : TopoClosed configers sorted) {current : Configer}
    (hcur : ∀ c ∈ configers, mustPrecede c current → c ∈ sorted) :
    TopoClosed configers (sorted ++ [current]) := by
  intro i hi c hc hp
  have hi' : i < sorted.length + 1 := by simpa using hi
  by_cases hlt : i < sorted.length
  · rw [List.getElem_append_left hlt] at hp
    have := h i hlt c hc hp
    rwa [List.take_append_of_le_length (le_of_lt hlt)]
  · have hie : i = sorted.length := by omega
    subst hie
    rw [List.getElem_append_right (le_refl _)] at hp
    simp only [Nat.sub_self, List.getElem_cons_zero] at hp
    rw [List.take_left]
    exact hcur c hc hp

end GoSpring

namespace GoSpring

/-- Partial correctness of `sortConfigersByAfter`: a successful call
appends `current` (after all of its transitive prerequisites) to `sorted`,
keeps `processing` unchanged, and preserves every structural invariant. -/
theorem sortByAfter_sound (configers : List Configer) :
    ∀ (fuel : Nat) (st : SortState) (current : Configer) (st' : SortState),
      SInv configers st current →
      sortByAfter configers fuel st current = .ok st' →
      SOut configers st current st' := by
  intro fuel
  induction fuel with
  | zero =>
    intro st current st' _ h
    exact absurd h (by simp [sortByAfter])
  | succ fuel ih =>
    intro st current st' hsinv h
    simp only [sortByAfter] at h
    cases hpd : processDeps (sortByAfter configers fuel)
        { st with processing := st.processing ++ [current] }
        (getBeforeConfigers configers current) with
    | error e => rw [hpd] at h; exact absurd h (by simp)
    | ok st2 =>
      rw [hpd] at h
      injection h with h
      subst h
      have m1 : MInv configers
          { st with processing := st.processing ++ [current] } := hsinv.push
      have hds : ∀ c ∈ getBeforeConfigers configers current, c ∈ configers :=
        fun c hc => (mem_getBeforeConfigers.mp hc).1
      have hdep : ∀ c ∈ getBeforeConfigers configers current, ∀ last,
          ({ st with processing := st.processing ++ [current] } :
            SortState).processing.getLast? = some last → mustPrecede c last := by
        intro c hc last hlast
        simp only [List.getLast?_concat] at hlast
        injection hlast with hl
        subst hl
        exact (mem_getBeforeConfigers.mp hc).2
      obtain ⟨pout, hdeps_sorted⟩ := processDeps_sound configers _
        (fun s c s' hs hh => ih s c s' hs hh) _
        { st with processing := st.processing ++ [current] } st2 m1 hds hdep hpd
      have hpr2 : st2.processing = st.processing ++ [current] := pout.pr_eq
      obtain ⟨Δ, hΔ⟩ := pout.so_pfx
      have hcur_pr1 : current ∈
          ({ st with processing := st.processing ++ [current] } :
            SortState).processing := by simp
      have hcur_not_so2 : current ∉ st2.sorted := by
        intro hc
        by_cases h0 : current ∈ st.sorted
        · exact hsinv.cur_not_so h0
        · exact pout.new_not_pr current hc h0 hcur_pr1
      have hcur_ts2 : current ∈ st.toSort → current ∈ st2.toSort := by
        intro hts
        by_contra hn
        exact hcur_not_so2 (pout.ts_reloc current hts hn)
      refine ⟨?_, ?_, ?_, ?_, ?_, ?_, ?_, ?_, ?_, ?_, ?_, ?_, ?_⟩
      · exact ⟨Δ ++ [current], by simp only [hΔ]; rw [List.append_assoc]⟩
      · exact List.mem_append.mpr (Or.inr (List.mem_singleton.mpr rfl))
      · intro x hx hxn
        rcases List.mem_append.mp hx with hx | hx
        · intro hpr
          exact pout.new_not_pr x hx hxn (List.mem_append.mpr (Or.inl hpr))
        · rw [List.mem_singleton.mp hx]
          exact hsinv.cur_not_pr
      · intro x hx hxn
        rcases List.mem_append.mp hx with hx | hx
        · exact Or.inr (pout.new_src x hx hxn)
        · exact Or.inl (List.mem_singleton.mp hx)
      · show st2.processing.erase current = st.processing
        rw [hpr2, List.erase_append_right _ hsinv.cur_not_pr,
          List.erase_cons_head, List.append_nil]
      · intro x hx
        exact pout.ts_sub x (List.mem_of_mem_erase hx)
      · intro x hx hnx
        by_cases hmid : x ∈ st2.toSort
        · have hxc : x = current := by
            by_contra hne
            exact hnx ((pout.minv.ts_nodup.mem_erase_iff).mpr ⟨hne, hmid⟩)
          rw [hxc]
          exact List.mem_append.mpr (Or.inr (List.mem_singleton.mpr rfl))
        · exact List.mem_append.mpr (Or.inl (pout.ts_reloc x hx hmid))
      · show (↑(st2.sorted ++ [current]) : Multiset Configer) +
            ↑(st2.toSort.erase current) = _
        by_cases hts : current ∈ st.toSort
        · rw [if_pos hts, add_zero]
          have hmem2 : current ∈ (st2.toSort : Multiset Configer) := hcur_ts2 hts
          calc (↑(st2.sorted ++ [current]) : Multiset Configer) +
                ↑(st2.toSort.erase current)
              = ↑st2.sorted + ({current} + ↑(st2.toSort.erase current)) := by
                rw [show (↑(st2.sorted ++ [current]) : Multiset Configer) =
                  ↑st2.sorted + {current} from rfl, add_assoc]
            _ = ↑st2.sorted + ↑st2.toSort := by
                rw [← Multiset.coe_erase, Multiset.singleton_add,
                  Multiset.cons_erase hmem2]
            _ = ↑st.sorted + ↑st.toSort := pout.mset
        · rw [if_neg hts]
          have hnot2 : current ∉ st2.toSort := fun hc => hts (pout.ts_sub current hc)
          rw [List.erase_of_not_mem hnot2]
          calc (↑(st2.sorted ++ [current]) : Multiset Configer) + ↑st2.toSort
              = ↑st2.sorted + ↑st2.toSort + {current} := by
                rw [show (↑(st2.sorted ++ [current]) : Multiset Configer) =
                  ↑st2.sorted + {current} from rfl]
                rw [add_assoc, add_comm ({current} : Multiset Configer), ← add_assoc]
            _ = ↑st.sorted + ↑st.toSort + {current} := by rw [pout.mset]
      · exact pout.minv.ts_nodup.erase current
      · rw [List.nodup_append]
        exact ⟨pout.minv.so_nodup, List.nodup_singleton _,
          fun x hx hmem => hcur_not_so2 ((List.mem_singleton.mp hmem) ▸ hx)⟩
      · intro x hx
        rcases List.mem_append.mp hx with hx | hx
        · exact pout.minv.so_sub x hx
        · rw [List.mem_singleton.mp hx]; exact hsinv.cur_mem
      · intro x hx
        rcases List.mem_append.mp hx with hx | hx
        · intro hxe
          exact pout.minv.disj_so_ts x hx (List.mem_of_mem_erase hxe)
        · rw [List.mem_singleton.mp hx]
          exact pout.minv.ts_nodup.not_mem_erase
      · exact pout.minv.topo.append (fun c hc hp =>
          hdeps_sorted c (mem_getBeforeConfigers.mpr ⟨hc, hp⟩))

end GoSpring

namespace GoSpring

/-- Totality of the dependency loop on acyclic collections: the cycle
check never fires, so the loop returns some state. -/
theorem processDeps_total (configers : List Configer) (hacyc : ¬ HasCycle configers)
    (sba : SortState → Configer → Except (List String) SortState)
    (hsba_sound : ∀ st c st', SInv configers st c → sba st c = .ok st' →
      SOut configers st c st')
    (pn : Nat)
    (hsba_total : ∀ st c, SInv configers st c → st.processing.length = pn →
      ∃ st', sba st c = .ok st') :
    ∀ (deps : List Configer) (st : SortState),
      MInv configers st → st.processing.length = pn →
      (∀ c ∈ deps, c ∈ configers) →
      (∀ c ∈ deps, ∀ last, st.processing.getLast? = some last → mustPrecede c last) →
      ∃ st2, processDeps sba st deps = .ok st2 := by
  intro deps
  induction deps with
  | nil => intro st _ _ _ _; exact ⟨st, rfl⟩
  | cons c rest ih =>
    intro st m hpn hdsub hdep
    rw [processDeps]
    split
    · rename_i hcpr
      exfalso
      cases hlast : st.processing.getLast? with
      | none =>
        rw [List.getLast?_eq_none_iff] at hlast
        rw [hlast] at hcpr
        exact absurd hcpr (List.not_mem_nil c)
      | some last =>
        exact hacyc (cycle_of_mem_processing m.chain m.pr_sub hcpr hlast
          (m.pr_sub last (List.mem_of_mem_getLast? hlast))
          (hdep c (List.mem_cons_self c rest) last hlast))
    · split
      · rename_i hnotpr hcond
        obtain ⟨hcso, hcts⟩ := hcond
        have hsinv : SInv configers st c :=
          nested_SInv m (hdsub c (List.mem_cons_self c rest)) hnotpr hcso hcts
            (hdep c (List.mem_cons_self c rest))
        obtain ⟨st', hst'⟩ := hsba_total st c hsinv hpn
        rw [hst']
        have so := hsba_sound st c st' hsinv hst'
        have p1 : POut configers st st' := so.toPOut m hcts
        exact ih st' p1.minv (by rw [p1.pr_eq]; exact hpn)
          (fun d hd => hdsub d (List.mem_cons_of_mem c hd))
          (fun d hd last hlast => hdep d (List.mem_cons_of_mem c hd) last
            (by rwa [p1.pr_eq] at hlast))
      · exact ih st m hpn (fun d hd => hdsub d (List.mem_cons_of_mem c hd))
          (fun d hd => hdep d (List.mem_cons_of_mem c hd))

/-- Totality of `sortConfigersByAfter` on acyclic collections, for fuel
exceeding the number of units not yet on the processing stack. -/
theorem sortByAfter_total (configers : List Configer) (hacyc : ¬ HasCycle configers) :
    ∀ (fuel : Nat) (st : SortState) (current : Configer),
      SInv configers st current →
      configers.length < fuel + st.processing.length →
      ∃ st', sortByAfter configers fuel st current = .ok st' := by
  intro fuel
  induction fuel with
  | zero =>
    intro st current hsinv hlen
    exfalso
    have hnodup := hsinv.push.pr_nodup
    have hsub := hsinv.push.pr_sub
    have := (List.subperm_of_subset hnodup hsub).length_le
    simp only [List.length_append, List.length_singleton] at this
    omega
  | succ fuel ih =>
    intro st current hsinv hlen
    simp only [sortByAfter]
    obtain ⟨st2, hst2⟩ := processDeps_total configers hacyc _
      (fun s c s' hs hh => sortByAfter_sound configers fuel s c s' hs hh)
      (st.processing.length + 1)
      (fun s c hs hpn => ih s c hs (by rw [hpn]; omega))
      (getBeforeConfigers configers current)
      { st with processing := st.processing ++ [current] } hsinv.push
      (by simp)
      (fun c hc => (mem_getBeforeConfigers.mp hc).1)
      (by
        intro c hc last hlast
        simp only [List.getLast?_concat] at hlast
        injection hlast with hl
        subst hl
        exact (mem_getBeforeConfigers.mp hc).2)
    rw [hst2]
    exact ⟨_, rfl⟩

end GoSpring

namespace GoSpring


/-- Popping the front of `toSort` at the top of the worklist loop yields a
valid entry state for `sortConfigersByAfter`. -/
theorem pop_SInv {configers : List Configer} {st : SortState}
    {current : Configer} {rest : List Configer}
    (m : MInv configers st) (hpr : st.processing = [])
    (hts : st.toSort = current :: rest) :
    SInv configers { st with toSort := rest } current where
  ts_nodup := by
    have h := m.ts_nodup
    rw [hts] at h
    exact h.of_cons
  ts_sub := fun x hx => m.ts_sub x (by rw [hts]; exact List.mem_cons_of_mem _ hx)
  so_nodup := m.so_nodup
  so_sub := m.so_sub
  pr_nodup := m.pr_nodup
  pr_sub := m.pr_sub
  disj_so_ts := fun x hx hx2 =>
    m.disj_so_ts x hx (by rw [hts]; exact List.mem_cons_of_mem _ hx2)
  disj_pr_so := m.disj_pr_so
  topo := m.topo
  cur_mem := m.ts_sub current (by rw [hts]; exact List.mem_cons_self _ _)
  cur_not_so := fun hso =>
    m.disj_so_ts current hso (by rw [hts]; exact List.mem_cons_self _ _)
  cur_not_pr := by
    show current ∉ st.processing
    rw [hpr]
    exact List.not_mem_nil current
  cover := fun x hx => by
    rcases m.cover x hx with h | h | h
    · exact Or.inl h
    · rw [hts] at h
      rcases List.mem_cons.mp h with h | h
      · exact Or.inr (Or.inr (Or.inr h))
      · exact Or.inr (Or.inl h)
    · rw [hpr] at h
      exact absurd h (List.not_mem_nil x)
  chain := by
    show List.Chain' _ (st.processing ++ [current])
    rw [hpr]
    exact List.chain'_singleton current

/-- The worklist loop's invariants survive one `sortConfigersByAfter` call. -/
theorem loop_restore {configers : List Configer} {st st' : SortState}
    {current : Configer} {rest : List Configer}
    (m : MInv configers st) (hpr : st.processing = [])
    (hts : st.toSort = current :: rest)
    (so : SOut configers { st with toSort := rest } current st') :
    MInv configers st' ∧ st'.processing = [] := by
  have hpr' : st'.processing = [] := so.pr_eq.trans hpr
  refine ⟨⟨so.ts_nodup, ?_, so.so_nodup, so.so_sub, ?_, ?_, so.disj_so_ts, ?_, ?_, ?_,
    so.topo⟩, hpr'⟩
  · intro x hx
    exact m.ts_sub x (by rw [hts]; exact List.mem_cons_of_mem _ (so.ts_sub x hx))
  · rw [hpr']; exact List.nodup_nil
  · intro x hx
    rw [hpr'] at hx
    exact absurd hx (List.not_mem_nil x)
  · intro x hx
    rw [hpr'] at hx
    exact absurd hx (List.not_mem_nil x)
  · intro x hx
    rcases m.cover x hx with h | h | h
    · obtain ⟨Δ, hΔ⟩ := so.so_pfx
      exact Or.inl (by rw [hΔ]; exact List.mem_append.mpr (Or.inl h))
    · rw [hts] at h
      rcases List.mem_cons.mp h with rfl | h
      · exact Or.inl so.cur_so
      · by_cases hts' : x ∈ st'.toSort
        · exact Or.inr (Or.inl hts')
        · exact Or.inl (so.ts_reloc x h hts')
    · rw [hpr] at h
      exact absurd h (List.not_mem_nil x)
  · rw [hpr']
    exact List.chain'_nil

theorem sortLoop_nil (configers : List Configer) (fuel : Nat) (st : SortState)
    (hts : st.toSort = []) : sortLoop configers fuel st = .ok st.sorted := by
  cases st with
  | mk ts sor pr =>
    simp only at hts
    subst hts
    cases fuel with
    | zero => rfl
    | succ fuel => rfl

theorem sortLoop_zero_cons (configers : List Configer) (st : SortState)
    {current : Configer} {rest : List Configer}
    (hts : st.toSort = current :: rest) : sortLoop configers 0 st = .error [] := by
  cases st with
  | mk ts sor pr =>
    simp only at hts
    subst hts
    rfl

theorem sortLoop_cons (configers : List Configer) (fuel : Nat) (st : SortState)
    {current : Configer} {rest : List Configer}
    (hts : st.toSort = current :: rest) :
    sortLoop configers (fuel + 1) st =
      match sortByAfter configers (configers.length + 1)
          { st with toSort := rest } current with
      | .error e => .error e
      | .ok st' => sortLoop configers fuel st' := by
  cases st with
  | mk ts sor pr =>
    simp only at hts
    subst hts
    rfl

/-- Soundness of the worklist loop: a successful run returns a
duplicate-free, topologically closed arrangement of `sorted ++ toSort`. -/
theorem sortLoop_sound (configers : List Configer) :
    ∀ (fuel : Nat) (st : SortState) (out : List Configer),
      MInv configers st → st.processing = [] →
      sortLoop configers fuel st = .ok out →
      out.Nodup ∧ (∀ x ∈ out, x ∈ configers) ∧ TopoClosed configers out ∧
        (↑out : Multiset Configer) =
          (↑st.sorted : Multiset Configer) + ↑st.toSort := by
  intro fuel
  induction fuel with
  | zero =>
    intro st out m hpr h
    cases hts : st.toSort with
    | nil =>
      rw [sortLoop_nil configers 0 st hts] at h
      injection h with h
      subst h
      exact ⟨m.so_nodup, m.so_sub, m.topo, by simp⟩
    | cons current rest =>
      rw [sortLoop_zero_cons configers st hts] at h
      exact absurd h (by simp)
  | succ fuel ih =>
    intro st out m hpr h
    cases hts : st.toSort with
    | nil =>
      rw [sortLoop_nil configers (fuel + 1) st hts] at h
      injection h with h
      subst h
      exact ⟨m.so_nodup, m.so_sub, m.topo, by simp⟩
    | cons current rest =>
      rw [sortLoop_cons configers fuel st hts] at h
      cases hsa : sortByAfter configers (configers.length + 1)
          { st with toSort := rest } current with
      | error e => rw [hsa] at h; exact absurd h (by simp)
      | ok st' =>
        rw [hsa] at h
        have hsinv := pop_SInv m hpr hts
        have so := sortByAfter_sound configers _ _ _ _ hsinv hsa
        obtain ⟨m', hpr'⟩ := loop_restore m hpr hts so
        obtain ⟨hnd, hsub, htopo, hmset⟩ := ih st' out m' hpr' h
        refine ⟨hnd, hsub, htopo, ?_⟩
        have hcur_rest : current ∉ rest := by
          have hh := m.ts_nodup
          rw [hts, List.nodup_cons] at hh
          exact hh.1
        have hmset2 : (↑st'.sorted : Multiset Configer) + ↑st'.toSort =
            (↑st.sorted : Multiset Configer) + ↑rest + {current} := by
          have h2 := so.mset
          rw [if_neg (show current ∉
            ({ st with toSort := rest } : SortState).toSort from hcur_rest)] at h2
          exact h2
        calc (↑out : Multiset Configer)
            = ↑st'.sorted + ↑st'.toSort := hmset
          _ = ↑st.sorted + (↑rest : Multiset Configer) + {current} := hmset2
          _ = ↑st.sorted + ↑(current :: rest) := by
              rw [show ((current :: rest : List Configer) : Multiset Configer) =
                  (↑rest : Multiset Configer) + {current} from by
                  rw [← Multiset.cons_coe, ← Multiset.singleton_add, add_comm],
                add_assoc]

/-- Totality of the worklist loop on acyclic collections. -/
theorem sortLoop_total (configers : List Configer) (hacyc : ¬ HasCycle configers) :
    ∀ (fuel : Nat) (st : SortState),
      MInv configers st → st.processing = [] → st.toSort.length ≤ fuel →
      ∃ out, sortLoop configers fuel st = .ok out := by
  intro fuel
  induction fuel with
  | zero =>
    intro st m hpr hlen
    cases hts : st.toSort with
    | nil => exact ⟨st.sorted, sortLoop_nil configers 0 st hts⟩
    | cons current rest =>
      rw [hts] at hlen
      simp at hlen
  | succ fuel ih =>
    intro st m hpr hlen
    cases hts : st.toSort with
    | nil => exact ⟨st.sorted, sortLoop_nil configers (fuel + 1) st hts⟩
    | cons current rest =>
      have hsinv := pop_SInv m hpr hts
      obtain ⟨st', hst'⟩ := sortByAfter_total configers hacyc
        (configers.length + 1) { st with toSort := rest } current hsinv (by omega)
      have so := sortByAfter_sound configers _ _ _ _ hsinv hst'
      obtain ⟨m', hpr'⟩ := loop_restore m hpr hts so
      have hlen' : st'.toSort.length ≤ fuel := by
        have hsubp := (List.subperm_of_subset so.ts_nodup
          (fun x hx => so.ts_sub x hx)).length_le
        rw [hts] at hlen
        simp only [List.length_cons] at hlen
        show st'.toSort.length ≤ fuel
        have : rest.length ≤ fuel := by omega
        exact le_trans hsubp this
      obtain ⟨out, hout⟩ := ih st' m' hpr' hlen'
      refine ⟨out, ?_⟩
      rw [sortLoop_cons configers fuel st hts, hst']
      exact hout

end GoSpring

namespace GoSpring

theorem mem_take_exists {l : List Configer} {n : Nat} {x : Configer}
    (h : x ∈ l.take n) :
    ∃ (k : Nat) (hk : k < l.length), k < n ∧ l[k] = x := by
  rcases List.mem_iff_getElem.mp h with ⟨k, hk, hkx⟩
  have hk' : k < l.length ∧ k < n := by
    rw [List.length_take] at hk
    omega
  refine ⟨k, hk'.1, hk'.2, ?_⟩
  rw [← hkx]
  exact (List.getElem_take l).symm

/-- A topologically closed duplicate-free arrangement orders every
precedence-related pair by position. -/
theorem topoClosed_lt {configers out : List Configer} (hnd : out.Nodup)
    (hsub : ∀ x ∈ out, x ∈ configers) (h : TopoClosed configers out) :
    ∀ (i j : Nat) (hi : i < out.length) (hj : j < out.length),
      mustPrecede out[i] out[j] → i < j := by
  intro i j hi hj hp
  have hmem : out[i] ∈ out.take j := h j hj out[i] (hsub _ (List.getElem_mem hi)) hp
  obtain ⟨k, hk, hkj, hkx⟩ := mem_take_exists hmem
  have hki : k = i := (hnd.getElem_inj_iff).mp hkx
  omega

theorem initial_MInv (l : List Configer) (hnd : l.Nodup) :
    MInv l ⟨l, [], []⟩ where
  ts_nodup := hnd
  ts_sub := fun _ hx => hx
  so_nodup := List.nodup_nil
  so_sub := fun x hx => absurd hx (List.not_mem_nil x)
  pr_nodup := List.nodup_nil
  pr_sub := fun x hx => absurd hx (List.not_mem_nil x)
  disj_so_ts := fun x hx => absurd hx (List.not_mem_nil x)
  disj_pr_so := fun x hx => absurd hx (List.not_mem_nil x)
  cover := fun _ hx => Or.inr (Or.inl hx)
  chain := List.chain'_nil
  topo := fun i hi => absurd hi (by simp)

/-- A successful `sortConfigers` run returns a permutation of the input
in which every precedence-related pair is ordered correctly. -/
theorem sortConfigers_sound (l out : List Configer) (hnd : l.Nodup)
    (h : sortConfigers l = .ok out) :
    out.Perm l ∧ ∀ (i j : Nat) (hi : i < out.length) (hj : j < out.length),
      mustPrecede out[i] out[j] → i < j := by
  obtain ⟨hndo, hsub, htopo, hmset⟩ :=
    sortLoop_sound l (l.length + 1) ⟨l, [], []⟩ out (initial_MInv l hnd) rfl h
  constructor
  · have hco : (↑out : Multiset Configer) = ↑l := by
      rw [hmset]
      show ((([] : List Configer) : Multiset Configer)) + ↑l = ↑l
      simp
    exact Multiset.coe_eq_coe.mp hco
  · exact topoClosed_lt hndo hsub htopo

/-- On acyclic collections `sortConfigers` succeeds. -/
theorem sortConfigers_total (l : List Configer) (hnd : l.Nodup)
    (hacyc : ¬ HasCycle l) : ∃ out, sortConfigers l = .ok out :=
  sortLoop_total l hacyc (l.length + 1) ⟨l, [], []⟩ (initial_MInv l hnd) rfl
    (Nat.le_succ _)

/-- A successful sort certifies the absence of precedence cycles. -/
theorem not_hasCycle_of_ok (l out : List Configer) (hnd : l.Nodup)
    (h : sortConfigers l = .ok out) : ¬ HasCycle l := by
  obtain ⟨hperm, htopo⟩ := sortConfigers_sound l out hnd h
  rintro ⟨c, hc⟩
  have hstep : ∀ a b, precIn l a b →
      List.indexOf a out < List.indexOf b out := by
    rintro a b ⟨ha, hb, hp⟩
    have ha' : a ∈ out := hperm.mem_iff.mpr ha
    have hb' : b ∈ out := hperm.mem_iff.mpr hb
    have hia := List.indexOf_lt_length.mpr ha'
    have hib := List.indexOf_lt_length.mpr hb'
    apply htopo (List.indexOf a out) (List.indexOf b out) hia hib
    rw [List.getElem_indexOf hia, List.getElem_indexOf hib]
    exact hp
  have htg : ∀ a b, Relation.TransGen (precIn l) a b →
      List.indexOf a out < List.indexOf b out := by
    intro a b hab
    induction hab with
    | single h1 => exact hstep _ _ h1
    | tail _ h1 ih => exact lt_trans ih (hstep _ _ h1)
  exact lt_irrefl _ (htg c c hc)

end GoSpring

namespace GoSpring

/-- Counterexample to C1 as stated: input `[W, U, V]` with the single
constraint `V before W`.  The sort succeeds with `[V, W, U]`; `U` and `V`
carry no mutual constraint and `U` is seen before `V` in the input, yet
`V` precedes `U` in the result — first-seen order is not kept, because `V`
is pulled forward as a dependency of the earlier unit `W`. -/
theorem claim_C1_counterexample :
    sortConfigers [⟨"W", [], []⟩, ⟨"U", [], []⟩, ⟨"V", ["W"], []⟩] =
      .ok [⟨"V", ["W"], []⟩, ⟨"W", [], []⟩, ⟨"U", [], []⟩] ∧
    ¬ mustPrecede (⟨"U", [], []⟩ : Configer) ⟨"V", ["W"], []⟩ ∧
    ¬ mustPrecede (⟨"V", ["W"], []⟩ : Configer) ⟨"U", [], []⟩ ∧
    List.indexOf (⟨"U", [], []⟩ : Configer)
        [⟨"W", [], []⟩, ⟨"U", [], []⟩, ⟨"V", ["W"], []⟩] = 1 ∧
    List.indexOf (⟨"V", ["W"], []⟩ : Configer)
        [⟨"W", [], []⟩, ⟨"U", [], []⟩, ⟨"V", ["W"], []⟩] = 2 ∧
    List.indexOf (⟨"V", ["W"], []⟩ : Configer)
        [⟨"V", ["W"], []⟩, ⟨"W", [], []⟩, ⟨"U", [], []⟩] = 0 ∧
    List.indexOf (⟨"U", [], []⟩ : Configer)
        [⟨"V", ["W"], []⟩, ⟨"W", [], []⟩, ⟨"U", [], []⟩] = 2 :=
  ⟨rfl, by simp [mustPrecede], by simp [mustPrecede], rfl, rfl, rfl, rfl⟩

/-- C1 (amended): for every duplicate-free collection of Configer units
whose precedence relation is acyclic, the sorter succeeds with a total
order containing every unit exactly once in which, for every pair with
`A mustPrecede B`, `A` comes strictly before `B`.  (The original claim's
tie-break clause — unconstrained units keep first-seen input order — does
not hold: a unit is emitted earlier when it is reached as a dependency of
an earlier-seen unit.) -/
theorem claim_C1 (l : List Configer) (hnd : l.Nodup) (hacyc : ¬ HasCycle l) :
    ∃ out, sortConfigers l = .ok out ∧ out.Perm l ∧
      ∀ (i j : Nat) (hi : i < out.length) (hj : j < out.length),
        mustPrecede out[i] out[j] → i < j := by
  obtain ⟨out, hout⟩ := sortConfigers_total l hnd hacyc
  obtain ⟨hperm, htopo⟩ := sortConfigers_sound l out hnd hout
  exact ⟨out, hout, hperm, htopo⟩

/-- Witness for C1 on the singleton collection `[A]`. -/
theorem claim_C1_witness :
    ∃ out, sortConfigers [⟨"A", [], []⟩] = .ok out ∧
      out.Perm [⟨"A", [], []⟩] ∧
      ∀ (i j : Nat) (hi : i < out.length) (hj : j < out.length),
        mustPrecede out[i] out[j] → i < j :=
  claim_C1 [⟨"A", [], []⟩] (by decide) (by
    rintro ⟨c, hc⟩
    have hno : ∀ a b : Configer, ¬ precIn [⟨"A", [], []⟩] a b := by
      rintro a b ⟨ha, hb, hp⟩
      rw [List.mem_singleton] at ha hb
      subst ha; subst hb
      rcases hp with hp | hp <;> exact absurd hp (List.not_mem_nil _)
    cases hc with
    | single h => exact hno _ _ h
    | tail _ h => exact hno _ _ h)

/-- C2: a collection whose precedence relation has a cycle always fails to
sort (no order is returned), and on the spec's three-unit cycle the
reported names are exactly `A -> C -> B -> A`, naming every unit of the
cycle. -/
theorem claim_C2 :
    (∀ l : List Configer, l.Nodup → HasCycle l → ∃ e, sortConfigers l = .error e) ∧
    sortConfigers [⟨"A", ["B"], []⟩, ⟨"B", ["C"], []⟩, ⟨"C", ["A"], []⟩] =
      .error ["A", "C", "B", "A"] ∧
    "A" ∈ (["A", "C", "B", "A"] : List String) ∧
    "B" ∈ (["A", "C", "B", "A"] : List String) ∧
    "C" ∈ (["A", "C", "B", "A"] : List String) := by
  refine ⟨?_, rfl, by simp, by simp, by simp⟩
  intro l hnd hcyc
  cases hres : sortConfigers l with
  | error e => exact ⟨e, rfl⟩
  | ok out => exact absurd hcyc (not_hasCycle_of_ok l out hnd hres)

/-- Witness for C2 on the three-unit cycle `A before B before C before A`. -/
theorem claim_C2_witness :
    ∃ e, sortConfigers [⟨"A", ["B"], []⟩, ⟨"B", ["C"], []⟩, ⟨"C", ["A"], []⟩] =
      .error e :=
  claim_C2.1 [⟨"A", ["B"], []⟩, ⟨"B", ["C"], []⟩, ⟨"C", ["A"], []⟩] (by decide)
    ⟨⟨"A", ["B"], []⟩,
      Relation.TransGen.tail
        (Relation.TransGen.tail
          (Relation.TransGen.single
            ⟨List.mem_cons_self _ _,
             List.mem_cons_of_mem _ (List.mem_cons_self _ _),
             Or.inl (List.mem_singleton.mpr rfl)⟩)
          ⟨List.mem_cons_of_mem _ (List.mem_cons_self _ _),
           List.mem_cons_of_mem _ (List.mem_cons_of_mem _ (List.mem_cons_self _ _)),
           Or.inl (List.mem_singleton.mpr rfl)⟩)
        ⟨List.mem_cons_of_mem _ (List.mem_cons_of_mem _ (List.mem_cons_self _ _)),
         List.mem_cons_self _ _,
         Or.inl (List.mem_singleton.mpr rfl)⟩⟩

end GoSpring
